import Mathlib

/-!
Verification of the graph data model and incremental Kruskal engine of a
small interactive minimum-spanning-tree visualizer (`src/classes.py`).

The embedding below mirrors the Python source:

* geometry helpers `pt_distance`, `lies_between` and the segment-distance
  computation `Edge.distance_to` (floats are modelled by real numbers;
  Python's `ZeroDivisionError` is modelled by an `Option` result);
* the `Graph` class with vertices, edges, incident-edge back-reference
  sets, and its mutators (`move_vertex`, `remove_vertex`, `add_edge`,
  `modify_edge_weight`, `remove_edge`), where Python object identity is
  modelled by natural-number ids and Python `set`s by duplicate-free lists
  (a list keeps the iteration order that a CPython set fixes at runtime);
* the recursive depth-first search backing `Graph.connected`, modelled by
  its computed result: the iterated neighbour-closure of the start vertex;
* the `Kruskal` engine: a list of components (finite sets of vertex ids),
  `check_edge`, and the driving run over `get_sorted_edges` (Python's
  stable `sorted` is modelled by a stable insertion sort).
-/

namespace KruskalViz

/-! ### Geometry: pt_distance, lies_between, Edge.distance_to -/

/-- `pt_distance(a, b)`: Euclidean distance between two integer points,
computed in `ℝ` (the source computes with Python floats). -/
noncomputable def pt_distance (a b : ℤ × ℤ) : ℝ :=
  Real.sqrt (((b.1 - a.1 : ℤ) : ℝ) ^ 2 + ((b.2 - a.2 : ℤ) : ℝ) ^ 2)

/-- Squared distance over `ℤ`; used only to decide comparisons between the
real-valued distances of `pt_distance` exactly. -/
def sqdist (a b : ℤ × ℤ) : ℤ := (b.1 - a.1) ^ 2 + (b.2 - a.2) ^ 2

/-- `lies_between(point, a, b)`: the two law-of-cosines sign tests of the
source, with `_a = pt_distance(a, b)`, `_b = pt_distance(b, point)`,
`_c = pt_distance(point, a)`. -/
def lies_between (point a b : ℤ × ℤ) : Prop :=
  pt_distance a b ^ 2 + pt_distance b point ^ 2 ≥ pt_distance point a ^ 2 ∧
  pt_distance a b ^ 2 + pt_distance point a ^ 2 ≥ pt_distance b point ^ 2

instance (point a b : ℤ × ℤ) : Decidable (lies_between point a b) :=
  decidable_of_iff
    (sqdist point a ≤ sqdist a b + sqdist b point ∧
      sqdist b point ≤ sqdist a b + sqdist point a)
    (by
      have h1 : pt_distance a b ^ 2 = ((sqdist a b : ℤ) : ℝ) := by
        unfold pt_distance sqdist
        rw [Real.sq_sqrt (by positivity)]
        push_cast
        ring
      have h2 : pt_distance b point ^ 2 = ((sqdist b point : ℤ) : ℝ) := by
        unfold pt_distance sqdist
        rw [Real.sq_sqrt (by positivity)]
        push_cast
        ring
      have h3 : pt_distance point a ^ 2 = ((sqdist point a : ℤ) : ℝ) := by
        unfold pt_distance sqdist
        rw [Real.sq_sqrt (by positivity)]
        push_cast
        ring
      unfold lies_between
      rw [h1, h2, h3, ge_iff_le, ge_iff_le]
      constructor
      · rintro ⟨u, v⟩
        exact ⟨by exact_mod_cast u, by exact_mod_cast v⟩
      · rintro ⟨u, v⟩
        exact ⟨by exact_mod_cast u, by exact_mod_cast v⟩)

instance (a b : ℤ × ℤ) : Decidable (pt_distance a b = 0) :=
  decidable_of_iff (sqdist a b = 0)
    (by
      have h : pt_distance a b = Real.sqrt ((sqdist a b : ℤ) : ℝ) := by
        unfold pt_distance sqdist
        congr 1
        push_cast
        ring
      have hnn : (0 : ℝ) ≤ ((sqdist a b : ℤ) : ℝ) := by
        have : (0 : ℤ) ≤ sqdist a b := by unfold sqdist; positivity
        exact_mod_cast this
      rw [h, Real.sqrt_eq_zero hnn, Int.cast_eq_zero])

/-- `Edge.distance_to(point)` for an edge whose endpoints sit at positions
`a` and `b`.  The label-rectangle shortcut of the source is a
rendering-layer bias (`self._label_rect` is `None` until the edge has been
drawn) and is omitted; the remaining geometry is translated literally.
Python raises `ZeroDivisionError` when the perpendicular-distance formula
divides by a zero segment length, which is modelled by `none`. -/
noncomputable def distance_to (point a b : ℤ × ℤ) : Option ℝ :=
  if lies_between point a b then
    if pt_distance a b = 0 then none
    else
      some (|((b.1 - a.1 : ℤ) : ℝ) * ((a.2 - point.2 : ℤ) : ℝ) -
          ((a.1 - point.1 : ℤ) : ℝ) * ((b.2 - a.2 : ℤ) : ℝ)| / pt_distance a b)
  else some (min (pt_distance point a) (pt_distance point b))

/-! ### The Kruskal engine (`class Kruskal`)

Vertices are identified by naturals; an `Edge` record carries the two
endpoint ids and the integer weight.  `kruskal_status` values follow the
source: `-1` excluded, `0` unchecked, `1` included, `2` being checked. -/

structure Edge where
  a : ℕ
  b : ℕ
  weight : ℤ
deriving DecidableEq

/-- A connected component as tracked by the engine: a `frozenset` of
vertices. -/
abbrev Component := Finset ℕ

/-- The component-lookup loop of `check_edge`: iterate over the component
list, remembering the last component that contains `v` (the Python loop
overwrites `_a_component` / `_b_component` on every hit). -/
def find_comp (cs : List Component) (v : ℕ) : Option Component :=
  cs.foldl (fun acc c => if v ∈ c then some c else acc) none

/-- `find_comp` with an explicit fold accumulator (for reasoning about the
lookup loop). -/
def find_comp_from (acc : Option Component) (cs : List Component) (v : ℕ) :
    Option Component :=
  cs.foldl (fun acc c => if v ∈ c then some c else acc) acc

/-- Python `set.add`: append the element unless it is already present. -/
def set_add {α : Type} [DecidableEq α] (l : List α) (x : α) : List α :=
  if x ∈ l then l else l ++ [x]

/-- `Kruskal.__init__`: one singleton component per graph vertex.  The
vertex set is modelled by a duplicate-free list. -/
def kruskal_init (vs : List ℕ) : List Component :=
  vs.map (fun v => ({v} : Component))

/-- `Kruskal.check_edge`: look both endpoints up; raise (`none`) when a
lookup fails (the Python truthiness test `not (_a_component and
_b_component)` is equivalent, since a found component contains the vertex
and hence is non-empty); classify the edge `-1` and keep the partition
when the components coincide, else classify `1` and merge the two
components (`set.remove` twice, then `set.add` of the union). -/
def check_edge (cs : List Component) (e : Edge) : Option (ℤ × List Component) :=
  match find_comp cs e.a, find_comp cs e.b with
  | some ca, some cb =>
      if ca = cb then some (-1, cs)
      else some (1, set_add ((cs.erase ca).erase cb) (ca ∪ cb))
  | _, _ => none

/-- Driving loop of the visualizer (`AlgorithmRunner.next_step`): feed the
edges one by one through `check_edge`, recording each edge's resulting
`kruskal_status`.  Fails (`none`) as soon as one call raises. -/
def run_kruskal (cs : List Component) :
    List Edge → Option (List (Edge × ℤ) × List Component)
  | [] => some ([], cs)
  | e :: es =>
      match check_edge cs e with
      | none => none
      | some (s, cs') =>
          match run_kruskal cs' es with
          | none => none
          | some (out, csf) => some ((e, s) :: out, csf)

/-- Sort order used by `Graph.get_sorted_edges`: ascending weight. -/
def wle (x y : Edge) : Prop := x.weight ≤ y.weight

instance : DecidableRel wle := fun x y => Int.decLe x.weight y.weight

instance : IsTotal Edge wle := ⟨fun x y => le_total x.weight y.weight⟩

instance : IsTrans Edge wle := ⟨fun _ _ _ h h' => le_trans h h'⟩

/-- `Graph.get_sorted_edges`: the edges sorted ascending by weight.
Python's `sorted` is a stable sort; it is modelled by the stable insertion
sort. -/
def get_sorted_edges (es : List Edge) : List Edge :=
  es.insertionSort wle

/-- The edges classified `Included` (status `1`) by a run, in run order. -/
def included_edges (out : List (Edge × ℤ)) : List Edge :=
  (out.filter (fun p => decide (p.2 = 1))).map Prod.fst

/-- `Graph.kruskal_weight` / `spanning_weight()`: total weight of the
edges classified `Included`. -/
def kruskal_weight (out : List (Edge × ℤ)) : ℤ :=
  ((included_edges out).map Edge.weight).sum

/-! ### Reachability and spanning forests (specification vocabulary)

`Reach E x y` holds when a walk along edges of `E` joins `x` to `y`; it is
the transitive closure the component partition is meant to track. -/

/-- The edge `e` joins `x` and `y` (in either orientation). -/
def incid (e : Edge) (x y : ℕ) : Prop :=
  (e.a = x ∧ e.b = y) ∨ (e.a = y ∧ e.b = x)

/-- Walk-reachability along a list of edges. -/
inductive Reach (E : List Edge) : ℕ → ℕ → Prop
  | refl (x : ℕ) : Reach E x x
  | step {x y z : ℕ} (e : Edge) (he : e ∈ E) (hxy : incid e x y)
      (h : Reach E y z) : Reach E x z

/-- A list of edges is acyclic when every edge is a bridge: its endpoints
are not joined by the remaining edges. -/
def Acyclic (F : List Edge) : Prop :=
  ∀ e ∈ F, ¬ Reach (F.erase e) e.a e.b

/-- `F` is a spanning forest of the graph with edge list `E`: a subset of
`E`, acyclic, with the same reachability relation as `E`. -/
def IsSpanningForest (E F : List Edge) : Prop :=
  (∀ e ∈ F, e ∈ E) ∧ Acyclic F ∧ ∀ x y : ℕ, Reach E x y ↔ Reach F x y

/-- Total weight of an edge list. -/
def weight_of (F : List Edge) : ℤ := (F.map Edge.weight).sum

/-- `F` is a minimum spanning forest of `E`. -/
def IsMSF (E F : List Edge) : Prop :=
  IsSpanningForest E F ∧
    ∀ F' : List Edge, IsSpanningForest E F' → weight_of F ≤ weight_of F'

/-- The graph with vertex set `V` and edge list `E` is connected. -/
def ConnectedG (V : Finset ℕ) (E : List Edge) : Prop :=
  ∀ x ∈ V, ∀ y ∈ V, Reach E x y

/-- `T` is a spanning tree of the connected graph `(V, E)`: a spanning
forest that connects all of `V`. -/
def IsSpanningTree (V : Finset ℕ) (E T : List Edge) : Prop :=
  IsSpanningForest E T ∧ ConnectedG V T

/-- `T` is a minimum spanning tree of `(V, E)`. -/
def IsMST (V : Finset ℕ) (E T : List Edge) : Prop :=
  IsSpanningTree V E T ∧
    ∀ T' : List Edge, IsSpanningTree V E T' → weight_of T ≤ weight_of T'

/-- The component state is a partition of the snapshotted vertex set `V`:
duplicate-free, pairwise-disjoint, non-empty components covering exactly
`V`. -/
def IsPartition (V : Finset ℕ) (cs : List Component) : Prop :=
  cs.Nodup ∧
  (∀ c ∈ cs, c.Nonempty) ∧
  cs.Pairwise (fun c d => Disjoint c d) ∧
  (∀ c ∈ cs, c ⊆ V) ∧
  ∀ v ∈ V, ∃ c ∈ cs, v ∈ c

instance (V : Finset ℕ) (cs : List Component) : Decidable (IsPartition V cs) :=
  decidable_of_iff
    (cs.Nodup ∧ (∀ c ∈ cs, c.Nonempty) ∧
      cs.Pairwise (fun c d => Disjoint c d) ∧ (∀ c ∈ cs, c ⊆ V) ∧
      ∀ v ∈ V, ∃ c ∈ cs, v ∈ c) Iff.rfl

/-- Two vertices sit in a common component. -/
def same_comp (cs : List Component) (x y : ℕ) : Prop :=
  ∃ c ∈ cs, x ∈ c ∧ y ∈ c

/-- Run-time invariant tying the engine state to the included edges `I`:
the components partition `V`, membership in a common component coincides
with `Reach I`, `I` is acyclic with endpoints in `V`, and each merge has
traded one component for one included edge. -/
structure EngineInv (V : Finset ℕ) (cs : List Component) (I : List Edge) : Prop where
  part : IsPartition V cs
  endpts : ∀ e ∈ I, e.a ∈ V ∧ e.b ∈ V
  sc_of_reach : ∀ x y : ℕ, x ∈ V → Reach I x y → same_comp cs x y
  reach_of_sc : ∀ x y : ℕ, same_comp cs x y → Reach I x y
  acyc : Acyclic I
  count : cs.length + I.length = V.card

/-! ### The `Graph` class

Python objects are identified by ids; the mutable attributes
(`Vertex.pos`, `Vertex._edges`, `Edge.weight`) live in maps on the graph
state.  Edge endpoints (`Edge.vertices`) are immutable after creation.
`next_id` supplies identities for newly constructed `Edge` objects. -/

inductive GraphErr where
  | unknownVertex
  | unknownEdge
deriving DecidableEq

structure PyGraph where
  vertices : List ℕ
  pos : ℕ → ℤ × ℤ
  vedges : ℕ → List ℕ
  edges : List ℕ
  ends : ℕ → ℕ × ℕ
  wt : ℕ → ℤ
  next_id : ℕ

/-- `Graph.move_vertex`: raise for a non-member, else mutate the position
in place. -/
def move_vertex (g : PyGraph) (v : ℕ) (p : ℤ × ℤ) : Option GraphErr × PyGraph :=
  if v ∈ g.vertices then (none, { g with pos := Function.update g.pos v p })
  else (some .unknownVertex, g)

/-- `Graph.remove_edge`: raise for a non-member, else unregister the edge
from both endpoints' `_edges` sets, then remove it from `self.edges`. -/
def remove_edge (g : PyGraph) (e : ℕ) : Option GraphErr × PyGraph :=
  if e ∈ g.edges then
    let a := (g.ends e).1
    let b := (g.ends e).2
    let m1 := Function.update g.vedges a ((g.vedges a).erase e)
    let m2 := Function.update m1 b ((m1 b).erase e)
    (none, { g with vedges := m2, edges := g.edges.erase e })
  else (some .unknownEdge, g)

/-- The list-comprehension filter of `remove_vertex`: the edges incident
to `v` (`v in e.vertices`). -/
def incident_edges (g : PyGraph) (v : ℕ) : List ℕ :=
  g.edges.filter (fun e => decide (v = (g.ends e).1) || decide (v = (g.ends e).2))

/-- `Graph.remove_vertex`: raise for a non-member, else remove every
incident edge via `remove_edge`, then remove the vertex itself. -/
def remove_vertex (g : PyGraph) (v : ℕ) : Option GraphErr × PyGraph :=
  if v ∈ g.vertices then
    let g' := (incident_edges g v).foldl (fun h e => (remove_edge h e).2) g
    (none, { g' with vertices := g'.vertices.erase v })
  else (some .unknownVertex, g)

/-- `Graph.modify_edge_weight`: raise for a non-member, else mutate the
weight in place. -/
def modify_edge_weight (g : PyGraph) (e : ℕ) (w : ℤ) : Option GraphErr × PyGraph :=
  if e ∈ g.edges then (none, { g with wt := Function.update g.wt e w })
  else (some .unknownEdge, g)

/-- The unordered endpoint pair of an edge, as compared by
`set((a, b)) == set(e.vertices)`. -/
def pair_of (g : PyGraph) (e : ℕ) : Finset ℕ :=
  {(g.ends e).1, (g.ends e).2}

/-- `Graph.add_edge`: raise when either endpoint is a non-member; no-op
for a self-pair; update the weight of the first edge already joining the
unordered pair (graph simplicity); otherwise construct a new `Edge`
(which registers itself in both endpoints' `_edges` sets) and add it. -/
def add_edge (g : PyGraph) (a b : ℕ) (w : ℤ) : Option GraphErr × PyGraph :=
  if a ∈ g.vertices ∧ b ∈ g.vertices then
    if a = b then (none, g)
    else
      match g.edges.find? (fun e => decide (({a, b} : Finset ℕ) = pair_of g e)) with
      | some e => modify_edge_weight g e w
      | none =>
          let eid := g.next_id
          let m1 := Function.update g.vedges a (set_add (g.vedges a) eid)
          let m2 := Function.update m1 b (set_add (m1 b) eid)
          (none,
            { g with
              vedges := m2
              edges := set_add g.edges eid
              ends := Function.update g.ends eid (a, b)
              wt := Function.update g.wt eid w
              next_id := g.next_id + 1 })
  else (some .unknownVertex, g)

/-- Well-formedness of a graph state: the invariants the Python code
maintains for states reachable through the `Graph` API. -/
def WF (g : PyGraph) : Prop :=
  g.vertices.Nodup ∧
  g.edges.Nodup ∧
  (∀ v ∈ g.vertices, (g.vedges v).Nodup) ∧
  (∀ e ∈ g.edges, (g.ends e).1 ∈ g.vertices ∧ (g.ends e).2 ∈ g.vertices) ∧
  (∀ e ∈ g.edges, (g.ends e).1 ≠ (g.ends e).2) ∧
  (∀ v ∈ g.vertices, ∀ e ∈ g.vedges v,
    e ∈ g.edges ∧ ((g.ends e).1 = v ∨ (g.ends e).2 = v)) ∧
  (∀ v ∈ g.vertices, ∀ e ∈ g.edges,
    (g.ends e).1 = v ∨ (g.ends e).2 = v → e ∈ g.vedges v) ∧
  (∀ e ∈ g.edges, ∀ f ∈ g.edges, pair_of g e = pair_of g f → e = f) ∧
  ∀ e ∈ g.edges, e < g.next_id

/-- How many edges of `g` join the unordered pair `{a, b}`. -/
def edges_between (g : PyGraph) (a b : ℕ) : List ℕ :=
  g.edges.filter (fun e => decide (({a, b} : Finset ℕ) = pair_of g e))

instance (g : PyGraph) : Decidable (WF g) :=
  decidable_of_iff
    (g.vertices.Nodup ∧
      g.edges.Nodup ∧
      (∀ v ∈ g.vertices, (g.vedges v).Nodup) ∧
      (∀ e ∈ g.edges, (g.ends e).1 ∈ g.vertices ∧ (g.ends e).2 ∈ g.vertices) ∧
      (∀ e ∈ g.edges, (g.ends e).1 ≠ (g.ends e).2) ∧
      (∀ v ∈ g.vertices, ∀ e ∈ g.vedges v,
        e ∈ g.edges ∧ ((g.ends e).1 = v ∨ (g.ends e).2 = v)) ∧
      (∀ v ∈ g.vertices, ∀ e ∈ g.edges,
        (g.ends e).1 = v ∨ (g.ends e).2 = v → e ∈ g.vedges v) ∧
      (∀ e ∈ g.edges, ∀ f ∈ g.edges, pair_of g e = pair_of g f → e = f) ∧
      ∀ e ∈ g.edges, e < g.next_id) Iff.rfl

/-- A small concrete well-formed graph (two vertices joined by one edge),
used to instantiate the theorems below on explicit inputs. -/
def sample_graph : PyGraph where
  vertices := [0, 1]
  pos := fun _ => (0, 0)
  vedges := fun v => if v = 0 then [0] else if v = 1 then [0] else []
  edges := [0]
  ends := fun _ => (0, 1)
  wt := fun _ => 7
  next_id := 1

/-! ### Connectivity (`Graph._dfs`, `Graph.connected`, `Graph.usable`) -/

/-- `Edge.walk(start)`: the opposite endpoint
(`vertices[0 if start == vertices[1] else 1]`). -/
def walk_fn (p : ℕ × ℕ) (u : ℕ) : ℕ :=
  if u = p.2 then p.1 else p.2

/-- The neighbours reached from `u` by walking each edge of `u._edges`. -/
def neighbors (g : PyGraph) (u : ℕ) : List ℕ :=
  (g.vedges u).map (fun e => walk_fn (g.ends e) u)

/-- One expansion step of the traversal: add every neighbour of every
vertex seen so far. -/
def reach_step (g : PyGraph) (s : Finset ℕ) : Finset ℕ :=
  s ∪ s.biUnion (fun u => (neighbors g u).toFinset)

/-- The `seen` set computed by the recursive `Graph._dfs` from `start`:
the closure of `{start}` under neighbour steps (reached after at most
`|vertices|` expansions). -/
def dfs_set (g : PyGraph) (start : ℕ) : Finset ℕ :=
  (reach_step g)^[g.vertices.length] {start}

/-- `Graph.connected`: `True` for at most one vertex, else DFS from an
arbitrary start vertex (the head of the vertex list models `next(iter(...))`)
and compare the count of seen vertices. -/
def connected (g : PyGraph) : Bool :=
  if g.vertices.length ≤ 1 then true
  else
    match g.vertices.head? with
    | none => true
    | some start => decide ((dfs_set g start).card = g.vertices.length)

/-- `Graph.usable`: needs at least one edge, then needs connectivity. -/
def usable (g : PyGraph) : Bool × String :=
  if g.edges.length = 0 then (false, "Your graph needs at least one edge!")
  else if ¬ connected g then (false, "Your graph must be connected!")
  else (true, "Looks good! Press [SPACE] to run Kruskal\x27s Algorithm!")

/-- Walk-reachability inside a `PyGraph` (specification vocabulary for
what `connected` computes). -/
inductive GReach (g : PyGraph) : ℕ → ℕ → Prop
  | refl (x : ℕ) : GReach g x x
  | step {x y z : ℕ} (e : ℕ) (he : e ∈ g.edges)
      (hxy : ((g.ends e).1 = x ∧ (g.ends e).2 = y) ∨
        ((g.ends e).1 = y ∧ (g.ends e).2 = x))
      (h : GReach g y z) : GReach g x z

/-- The mathematical sense of `connected`: every pair of vertices is
joined by a walk. -/
def ConnectedPG (g : PyGraph) : Prop :=
  ∀ u ∈ g.vertices, ∀ v ∈ g.vertices, GReach g u v

/-! ### Lemmas about the component lookup loop -/

theorem find_comp_eq_from (cs : List Component) (v : ℕ) :
    find_comp cs v = find_comp_from none cs v := rfl

theorem find_comp_from_cons (acc : Option Component) (c : Component)
    (cs : List Component) (v : ℕ) :
    find_comp_from acc (c :: cs) v =
      find_comp_from (if v ∈ c then some c else acc) cs v := rfl

theorem find_comp_from_no_hit {cs : List Component} {v : ℕ}
    (h : ∀ c ∈ cs, v ∉ c) (acc : Option Component) :
    find_comp_from acc cs v = acc := by
  induction cs generalizing acc with
  | nil => rfl
  | cons c cs ih =>
      rw [find_comp_from_cons, if_neg (h c (List.mem_cons_self c cs))]
      exact ih (fun d hd => h d (List.mem_cons_of_mem c hd)) acc

theorem find_comp_from_result (cs : List Component) (v : ℕ)
    (acc : Option Component) :
    find_comp_from acc cs v = acc ∨
      ∃ c ∈ cs, find_comp_from acc cs v = some c ∧ v ∈ c := by
  induction cs generalizing acc with
  | nil => exact Or.inl rfl
  | cons c cs ih =>
      rw [find_comp_from_cons]
      by_cases hv : v ∈ c
      · rw [if_pos hv]
        rcases ih (some c) with h | ⟨d, hd, hres, hvd⟩
        · exact Or.inr ⟨c, List.mem_cons_self c cs, h, hv⟩
        · exact Or.inr ⟨d, List.mem_cons_of_mem c hd, hres, hvd⟩
      · rw [if_neg hv]
        rcases ih acc with h | ⟨d, hd, hres, hvd⟩
        · exact Or.inl h
        · exact Or.inr ⟨d, List.mem_cons_of_mem c hd, hres, hvd⟩

theorem find_comp_from_hit {cs : List Component} {v : ℕ} {c : Component}
    (hc : c ∈ cs) (hv : v ∈ c) (acc : Option Component) :
    ∃ d ∈ cs, find_comp_from acc cs v = some d ∧ v ∈ d := by
  induction cs generalizing acc with
  | nil => cases hc
  | cons x xs ih =>
      rw [find_comp_from_cons]
      by_cases hvx : v ∈ x
      · rw [if_pos hvx]
        rcases find_comp_from_result xs v (some x) with h | ⟨d, hd, hres, hvd⟩
        · exact ⟨x, List.mem_cons_self x xs, h, hvx⟩
        · exact ⟨d, List.mem_cons_of_mem x hd, hres, hvd⟩
      · rw [if_neg hvx]
        rcases List.mem_cons.mp hc with rfl | hc'
        · exact absurd hv hvx
        · rcases ih hc' acc with ⟨d, hd, hres, hvd⟩
          exact ⟨d, List.mem_cons_of_mem x hd, hres, hvd⟩

theorem find_comp_none_iff {cs : List Component} {v : ℕ} :
    find_comp cs v = none ↔ ∀ c ∈ cs, v ∉ c := by
  constructor
  · intro h c hc hv
    rcases find_comp_from_hit hc hv none with ⟨d, _, hres, _⟩
    rw [find_comp_eq_from] at h
    rw [h] at hres
    cases hres
  · intro h
    rw [find_comp_eq_from]
    exact find_comp_from_no_hit h none

theorem find_comp_mem {cs : List Component} {v : ℕ} {c : Component}
    (h : find_comp cs v = some c) : c ∈ cs ∧ v ∈ c := by
  rw [find_comp_eq_from] at h
  rcases find_comp_from_result cs v none with h' | ⟨d, hd, hres, hvd⟩
  · rw [h] at h'; cases h'
  · rw [h] at hres
    cases hres
    exact ⟨hd, hvd⟩

theorem find_comp_unique {cs : List Component} {v : ℕ} {c : Component}
    (hc : c ∈ cs) (hv : v ∈ c) (huniq : ∀ d ∈ cs, v ∈ d → d = c) :
    find_comp cs v = some c := by
  rcases find_comp_from_hit hc hv none with ⟨d, hd, hres, hvd⟩
  rw [find_comp_eq_from, hres, huniq d hd hvd]

/-! ### Partition lemmas -/

theorem partition_nodup {V : Finset ℕ} {cs : List Component}
    (h : IsPartition V cs) : cs.Nodup := h.1

theorem partition_eq_of_mem {V : Finset ℕ} {cs : List Component}
    (h : IsPartition V cs) {c d : Component} {v : ℕ}
    (hc : c ∈ cs) (hd : d ∈ cs) (hvc : v ∈ c) (hvd : v ∈ d) : c = d := by
  by_contra hne
  obtain ⟨-, -, hpw, -, -⟩ := h
  have hdisj : Disjoint c d :=
    hpw.forall (fun _ _ h' => h'.symm) hc hd hne
  exact Finset.disjoint_left.mp hdisj hvc hvd

theorem partition_find {V : Finset ℕ} {cs : List Component}
    (h : IsPartition V cs) {v : ℕ} (hv : v ∈ V) :
    ∃ c, find_comp cs v = some c ∧ c ∈ cs ∧ v ∈ c := by
  rcases h.2.2.2.2 v hv with ⟨c, hc, hvc⟩
  exact ⟨c, find_comp_unique hc hvc
    (fun d hd hvd => partition_eq_of_mem h hd hc hvd hvc), hc, hvc⟩

theorem same_comp_of_find {cs : List Component} {x y : ℕ} {c : Component}
    (hx : find_comp cs x = some c) (hy : find_comp cs y = some c) :
    same_comp cs x y :=
  ⟨c, (find_comp_mem hx).1, (find_comp_mem hx).2, (find_comp_mem hy).2⟩

theorem find_eq_of_same_comp {V : Finset ℕ} {cs : List Component}
    (h : IsPartition V cs) {x y : ℕ} (hsc : same_comp cs x y) :
    ∃ c, find_comp cs x = some c ∧ find_comp cs y = some c ∧ c ∈ cs ∧
      x ∈ c ∧ y ∈ c := by
  rcases hsc with ⟨c, hc, hxc, hyc⟩
  refine ⟨c, ?_, ?_, hc, hxc, hyc⟩
  · exact find_comp_unique hc hxc
      (fun d hd hvd => partition_eq_of_mem h hd hc hvd hxc)
  · exact find_comp_unique hc hyc
      (fun d hd hvd => partition_eq_of_mem h hd hc hvd hyc)

theorem same_comp_trans {V : Finset ℕ} {cs : List Component}
    (h : IsPartition V cs) {x y z : ℕ}
    (hxy : same_comp cs x y) (hyz : same_comp cs y z) : same_comp cs x z := by
  rcases hxy with ⟨c, hc, hxc, hyc⟩
  rcases hyz with ⟨d, hd, hyd, hzd⟩
  cases partition_eq_of_mem h hc hd hyc hyd
  exact ⟨c, hc, hxc, hzd⟩

theorem same_comp_symm {cs : List Component} {x y : ℕ}
    (hxy : same_comp cs x y) : same_comp cs y x := by
  rcases hxy with ⟨c, hc, hxc, hyc⟩
  exact ⟨c, hc, hyc, hxc⟩

/-! ### check_edge case analysis -/

theorem check_edge_raises {cs : List Component} {e : Edge}
    (h : (∀ c ∈ cs, e.a ∉ c) ∨ ∀ c ∈ cs, e.b ∉ c) :
    check_edge cs e = none := by
  unfold check_edge
  rcases h with h | h
  · rw [find_comp_none_iff.mpr h]
  · rw [find_comp_none_iff.mpr h]
    cases find_comp cs e.a <;> rfl

theorem check_edge_same_comp {V : Finset ℕ} {cs : List Component} {e : Edge}
    (h : IsPartition V cs) (hsc : same_comp cs e.a e.b) :
    check_edge cs e = some (-1, cs) := by
  rcases find_eq_of_same_comp h hsc with ⟨c, ha, hb, -, -, -⟩
  unfold check_edge
  simp only [ha, hb, if_true]

theorem union_not_mem_erased {V : Finset ℕ} {cs : List Component}
    (h : IsPartition V cs) {ca cb : Component}
    (hca : ca ∈ cs) (hcb : cb ∈ cs) (hne : ca ≠ cb)
    (hcane : ca.Nonempty) :
    ca ∪ cb ∉ (cs.erase ca).erase cb := by
  intro hmem
  have h1 : ca ∪ cb ∈ cs.erase ca := List.mem_of_mem_erase hmem
  have h2 : ca ∪ cb ∈ cs := List.mem_of_mem_erase h1
  have hnea : ca ∪ cb ≠ ca := by
    intro habs
    have : ca ∪ cb ≠ cb := by
      rw [habs]; exact hne
    have hmem2 : ca ∪ cb ∈ cs.erase ca := h1
    rw [habs] at hmem2
    exact (List.Nodup.mem_erase_iff (partition_nodup h)).mp hmem2 |>.1 rfl
  have hneb : ca ∪ cb ≠ cb := by
    intro habs
    have hmem2 := (List.Nodup.mem_erase_iff
      ((partition_nodup h).erase ca)).mp hmem
    rw [habs] at hmem2
    exact hmem2.1 rfl
  have hdisj : Disjoint (ca ∪ cb) ca :=
    h.2.2.1.forall (fun _ _ h' => h'.symm) h2 hca hnea
  rcases hcane with ⟨x, hx⟩
  exact Finset.disjoint_left.mp hdisj (Finset.mem_union_left cb hx) hx

theorem check_edge_diff_comp {V : Finset ℕ} {cs : List Component} {e : Edge}
    (h : IsPartition V cs) (ha : e.a ∈ V) (hb : e.b ∈ V)
    (hsc : ¬ same_comp cs e.a e.b) :
    ∃ ca cb, ca ∈ cs ∧ cb ∈ cs ∧ e.a ∈ ca ∧ e.b ∈ cb ∧ ca ≠ cb ∧
      check_edge cs e = some (1, (cs.erase ca).erase cb ++ [ca ∪ cb]) := by
  rcases partition_find h ha with ⟨ca, hfa, hcamem, hamem⟩
  rcases partition_find h hb with ⟨cb, hfb, hcbmem, hbmem⟩
  have hne : ca ≠ cb := by
    intro habs
    exact hsc ⟨ca, hcamem, hamem, habs ▸ hbmem⟩
  refine ⟨ca, cb, hcamem, hcbmem, hamem, hbmem, hne, ?_⟩
  unfold check_edge
  simp only [hfa, hfb, if_neg hne]
  unfold set_add
  rw [if_neg (union_not_mem_erased h hcamem hcbmem hne ⟨e.a, hamem⟩)]

theorem merge_partition {V : Finset ℕ} {cs : List Component}
    (h : IsPartition V cs) {ca cb : Component}
    (hca : ca ∈ cs) (hcb : cb ∈ cs) (hne : ca ≠ cb) :
    IsPartition V ((cs.erase ca).erase cb ++ [ca ∪ cb]) := by
  obtain ⟨hnd, hne', hpw, hsub, hcov⟩ := h
  have hnd2 : ((cs.erase ca).erase cb).Nodup := (hnd.erase ca).erase cb
  have hmem2 : ∀ c ∈ (cs.erase ca).erase cb, c ∈ cs :=
    fun c hc => List.mem_of_mem_erase (List.mem_of_mem_erase hc)
  have hne2 : ∀ c ∈ (cs.erase ca).erase cb, c ≠ ca ∧ c ≠ cb := by
    intro c hc
    have h1 : c ≠ cb := ((List.Nodup.mem_erase_iff (hnd.erase ca)).mp hc).1
    have h2 : c ∈ cs.erase ca := List.mem_of_mem_erase hc
    exact ⟨((List.Nodup.mem_erase_iff hnd).mp h2).1, h1⟩
  refine ⟨?_, ?_, ?_, ?_, ?_⟩
  · rw [List.nodup_append]
    refine ⟨hnd2, List.nodup_singleton _, ?_⟩
    intro c hc
    simp only [List.mem_singleton]
    intro habs
    exact union_not_mem_erased ⟨hnd, hne', hpw, hsub, hcov⟩ hca hcb hne
      (hne' ca hca) (habs ▸ hc)
  · intro c hc
    rcases List.mem_append.mp hc with hc | hc
    · exact hne' c (hmem2 c hc)
    · rw [List.mem_singleton.mp hc]
      rcases hne' ca hca with ⟨x, hx⟩
      exact ⟨x, Finset.mem_union_left cb hx⟩
  · rw [List.pairwise_append]
    refine ⟨(hpw.sublist (List.erase_sublist ca cs)).sublist
        (List.erase_sublist cb (cs.erase ca)), List.pairwise_singleton _ _, ?_⟩
    intro c hc d hd
    rw [List.mem_singleton.mp hd]
    rcases hne2 c hc with ⟨hnca, hncb⟩
    have hdc1 : Disjoint c ca :=
      hpw.forall (fun _ _ h' => h'.symm) (hmem2 c hc) hca hnca
    have hdc2 : Disjoint c cb :=
      hpw.forall (fun _ _ h' => h'.symm) (hmem2 c hc) hcb hncb
    exact Finset.disjoint_union_right.mpr ⟨hdc1, hdc2⟩
  · intro c hc
    rcases List.mem_append.mp hc with hc | hc
    · exact hsub c (hmem2 c hc)
    · rw [List.mem_singleton.mp hc]
      exact Finset.union_subset (hsub ca hca) (hsub cb hcb)
  · intro v hv
    rcases hcov v hv with ⟨c, hc, hvc⟩
    by_cases hcca : c = ca
    · exact ⟨ca ∪ cb, List.mem_append_right _ (List.mem_singleton_self _),
        Finset.mem_union_left cb (hcca ▸ hvc)⟩
    by_cases hccb : c = cb
    · exact ⟨ca ∪ cb, List.mem_append_right _ (List.mem_singleton_self _),
        Finset.mem_union_right ca (hccb ▸ hvc)⟩
    · refine ⟨c, List.mem_append_left _ ?_, hvc⟩
      rw [List.mem_erase_of_ne hccb, List.mem_erase_of_ne hcca]
      exact hc

theorem merge_length {cs : List Component} (hnd : cs.Nodup)
    {ca cb : Component} (hca : ca ∈ cs) (hcb : cb ∈ cs) (hne : ca ≠ cb) :
    ((cs.erase ca).erase cb ++ [ca ∪ cb]).length + 1 = cs.length := by
  have hcb' : cb ∈ cs.erase ca := (List.mem_erase_of_ne (Ne.symm hne)).mpr hcb
  have h1 : (cs.erase ca).length = cs.length - 1 := List.length_erase_of_mem hca
  have h2 : ((cs.erase ca).erase cb).length = (cs.erase ca).length - 1 :=
    List.length_erase_of_mem hcb'
  have h3 : 0 < cs.length := List.length_pos_of_mem hca
  have h4 : 0 < (cs.erase ca).length := List.length_pos_of_mem hcb'
  rw [List.length_append, h2, h1]
  simp only [List.length_singleton]
  omega

/-! ### Reachability lemmas -/

theorem incid_symm {e : Edge} {x y : ℕ} (h : incid e x y) : incid e y x := by
  rcases h with ⟨h1, h2⟩ | ⟨h1, h2⟩
  · exact Or.inr ⟨h1, h2⟩
  · exact Or.inl ⟨h1, h2⟩

theorem reach_trans {E : List Edge} {x y z : ℕ}
    (hxy : Reach E x y) (hyz : Reach E y z) : Reach E x z := by
  induction hxy with
  | refl _ => exact hyz
  | step e he hi _ ih => exact Reach.step e he hi (ih hyz)

theorem reach_single {E : List Edge} {e : Edge} {x y : ℕ}
    (he : e ∈ E) (hi : incid e x y) : Reach E x y :=
  Reach.step e he hi (Reach.refl y)

theorem reach_symm {E : List Edge} {x y : ℕ} (h : Reach E x y) :
    Reach E y x := by
  induction h with
  | refl x => exact Reach.refl x
  | step e he hi _ ih =>
      exact reach_trans ih (reach_single he (incid_symm hi))

theorem reach_mono {E E' : List Edge} (hsub : ∀ f ∈ E, f ∈ E')
    {x y : ℕ} (h : Reach E x y) : Reach E' x y := by
  induction h with
  | refl x => exact Reach.refl x
  | step e he hi _ ih => exact Reach.step e (hsub e he) hi ih

theorem reach_nil {x y : ℕ} (h : Reach [] x y) : x = y := by
  induction h with
  | refl _ => rfl
  | step e he _ _ _ => cases he

theorem reach_closure {E : List Edge} {Q : ℕ → ℕ → Prop}
    (hrefl : ∀ x, Q x x)
    (hsymm : ∀ {x y}, Q x y → Q y x)
    (htrans : ∀ {x y z}, Q x y → Q y z → Q x z)
    (hgen : ∀ e ∈ E, Q e.a e.b)
    {x y : ℕ} (h : Reach E x y) : Q x y := by
  induction h with
  | refl x => exact hrefl x
  | step e he hi _ ih =>
      rcases hi with ⟨h1, h2⟩ | ⟨h1, h2⟩
      · exact htrans (h1 ▸ h2 ▸ hgen e he) ih
      · exact htrans (hsymm (h1 ▸ h2 ▸ hgen e he)) ih

theorem reach_erase_replace {E : List Edge} {f : Edge}
    (hf : Reach (E.erase f) f.a f.b) {x y : ℕ}
    (h : Reach E x y) : Reach (E.erase f) x y := by
  induction h with
  | refl x => exact Reach.refl x
  | step e he hi _ ih =>
      by_cases hef : e = f
      · subst hef
        rcases hi with ⟨h1, h2⟩ | ⟨h1, h2⟩
        · exact reach_trans (h1 ▸ h2 ▸ hf) ih
        · exact reach_trans (h1 ▸ h2 ▸ reach_symm hf) ih
      · exact Reach.step e ((List.mem_erase_of_ne hef).mpr he) hi ih

theorem reach_split {E : List Edge} (f : Edge) {x y : ℕ}
    (h : Reach E x y) :
    Reach (E.erase f) x y ∨
      (Reach (E.erase f) x f.a ∧ Reach (E.erase f) f.b y) ∨
      (Reach (E.erase f) x f.b ∧ Reach (E.erase f) f.a y) := by
  induction h with
  | refl x => exact Or.inl (Reach.refl x)
  | step e he hi h ih =>
      by_cases hef : e = f
      · subst hef
        rcases hi with ⟨h1, h2⟩ | ⟨h1, h2⟩
        · subst h1; subst h2
          rcases ih with ih | ⟨ih1, ih2⟩ | ⟨ih1, ih2⟩
          · exact Or.inr (Or.inl ⟨Reach.refl _, ih⟩)
          · exact Or.inr (Or.inl ⟨Reach.refl _, ih2⟩)
          · exact Or.inl ih2
        · subst h1; subst h2
          rcases ih with ih | ⟨ih1, ih2⟩ | ⟨ih1, ih2⟩
          · exact Or.inr (Or.inr ⟨Reach.refl _, ih⟩)
          · exact Or.inl ih2
          · exact Or.inr (Or.inr ⟨Reach.refl _, ih2⟩)
      · have he' : e ∈ E.erase f := (List.mem_erase_of_ne hef).mpr he
        rcases ih with ih | ⟨ih1, ih2⟩ | ⟨ih1, ih2⟩
        · exact Or.inl (Reach.step e he' hi ih)
        · exact Or.inr (Or.inl ⟨Reach.step e he' hi ih1, ih2⟩)
        · exact Or.inr (Or.inr ⟨Reach.step e he' hi ih1, ih2⟩)

/-! ### Acyclicity lemmas -/

theorem acyclic_nil : Acyclic [] := by
  intro e he
  cases he

theorem reach_of_self_mem_erase {F : List Edge} {e : Edge}
    (h : e ∈ F.erase e) : Reach (F.erase e) e.a e.b :=
  reach_single h (Or.inl ⟨rfl, rfl⟩)

theorem acyclic_nodup {F : List Edge} (h : Acyclic F) : F.Nodup := by
  rw [List.nodup_iff_count_le_one]
  intro e
  by_contra habs
  push_neg at habs
  have hcnt : 0 < List.count e (F.erase e) := by
    rw [List.count_erase_self]
    omega
  have hmem : e ∈ F.erase e := List.count_pos_iff.mp hcnt
  have hmemF : e ∈ F := by
    have : 0 < List.count e F := by omega
    exact List.count_pos_iff.mp this
  exact h e hmemF (reach_of_self_mem_erase hmem)

theorem acyclic_subset {F F' : List Edge} (hsub : ∀ e ∈ F', e ∈ F)
    (hnd : F'.Nodup) (h : Acyclic F) : Acyclic F' := by
  intro e he hr
  refine h e (hsub e he) (reach_mono ?_ hr)
  intro f hf
  have hne : f ≠ e := ((List.Nodup.mem_erase_iff hnd).mp hf).1
  exact (List.mem_erase_of_ne hne).mpr
    (hsub f (List.mem_of_mem_erase hf))

theorem reach_congr {E E' : List Edge} (h : ∀ f, f ∈ E ↔ f ∈ E')
    {x y : ℕ} : Reach E x y ↔ Reach E' x y :=
  ⟨reach_mono (fun f hf => (h f).mp hf), reach_mono (fun f hf => (h f).mpr hf)⟩

theorem acyclic_cons_iff {F : List Edge} {e : Edge} (he : e ∉ F) :
    Acyclic (e :: F) ↔ Acyclic F ∧ ¬ Reach F e.a e.b := by
  constructor
  · intro h
    constructor
    · refine acyclic_subset (fun f hf => List.mem_cons_of_mem e hf) ?_ h
      exact (List.nodup_cons.mp (acyclic_nodup h)).2
    · intro hr
      have h' := h e (List.mem_cons_self e F)
      rw [List.erase_cons_head] at h'
      exact h' hr
  · rintro ⟨hF, hre⟩
    intro f hf
    rcases List.mem_cons.mp hf with rfl | hfF
    · rw [List.erase_cons_head]
      exact hre
    · have hfe : f ≠ e := fun habs => he (habs ▸ hfF)
      rw [List.erase_cons_tail (by simp [Ne.symm hfe])]
      intro hr
      rcases reach_split e hr with hr' | ⟨hr1, hr2⟩ | ⟨hr1, hr2⟩
      · rw [List.erase_cons_head] at hr'
        exact hF f hfF hr'
      · rw [List.erase_cons_head] at hr1 hr2
        have h1 : Reach F e.a f.a :=
          reach_symm (reach_mono (fun g hg => List.mem_of_mem_erase hg) hr1)
        have h2 : Reach F f.b e.b :=
          reach_symm (reach_mono (fun g hg => List.mem_of_mem_erase hg) hr2)
        have h3 : Reach F f.a f.b := reach_single hfF (Or.inl ⟨rfl, rfl⟩)
        exact hre (reach_trans h1 (reach_trans h3 h2))
      · rw [List.erase_cons_head] at hr1 hr2
        have h1 : Reach F e.a f.b :=
          reach_mono (fun g hg => List.mem_of_mem_erase hg) hr2
        have h2 : Reach F f.a e.b :=
          reach_mono (fun g hg => List.mem_of_mem_erase hg) hr1
        have h3 : Reach F f.b f.a :=
          reach_single hfF (Or.inr ⟨rfl, rfl⟩)
        exact hre (reach_trans h1 (reach_trans h3 h2))

theorem not_reach_imp_not_mem {F : List Edge} {e : Edge}
    (h : ¬ Reach F e.a e.b) : e ∉ F := by
  intro hmem
  exact h (reach_single hmem (Or.inl ⟨rfl, rfl⟩))

theorem acyclic_append_singleton {F : List Edge} {e : Edge}
    (hF : Acyclic F) (hre : ¬ Reach F e.a e.b) : Acyclic (F ++ [e]) := by
  have he : e ∉ F := not_reach_imp_not_mem hre
  have hcons : Acyclic (e :: F) := (acyclic_cons_iff he).mpr ⟨hF, hre⟩
  have hnd : (F ++ [e]).Nodup := by
    have := acyclic_nodup hcons
    rw [List.nodup_cons] at this
    rw [List.nodup_append]
    refine ⟨this.2, List.nodup_singleton e, ?_⟩
    intro f hf
    simp only [List.mem_singleton]
    intro habs
    exact he (habs ▸ hf)
  refine acyclic_subset (fun f hf => ?_) hnd hcons
  rcases List.mem_append.mp hf with hf | hf
  · exact List.mem_cons_of_mem e hf
  · rw [List.mem_singleton.mp hf]
    exact List.mem_cons_self e F

/-! ### The engine invariant: initialization and preservation -/

theorem kruskal_init_partition {vs : List ℕ} (hnd : vs.Nodup) :
    IsPartition vs.toFinset (kruskal_init vs) := by
  refine ⟨?_, ?_, ?_, ?_, ?_⟩
  · exact hnd.map (fun x y h => Finset.singleton_injective h)
  · intro c hc
    rcases List.mem_map.mp hc with ⟨v, -, rfl⟩
    exact ⟨v, Finset.mem_singleton_self v⟩
  · unfold kruskal_init
    rw [List.pairwise_map]
    refine hnd.imp ?_
    intro a b hne
    rw [Finset.disjoint_singleton_left, Finset.mem_singleton]
    exact hne
  · intro c hc
    rcases List.mem_map.mp hc with ⟨v, hv, rfl⟩
    intro x hx
    rw [Finset.mem_singleton.mp hx]
    exact List.mem_toFinset.mpr hv
  · intro v hv
    exact ⟨{v}, List.mem_map.mpr ⟨v, List.mem_toFinset.mp hv, rfl⟩,
      Finset.mem_singleton_self v⟩

theorem engine_inv_init {vs : List ℕ} (hnd : vs.Nodup) :
    EngineInv vs.toFinset (kruskal_init vs) [] := by
  refine ⟨kruskal_init_partition hnd, ?_, ?_, ?_, acyclic_nil, ?_⟩
  · intro e he
    cases he
  · intro x y hx hr
    cases reach_nil hr
    exact ⟨{x}, List.mem_map.mpr ⟨x, List.mem_toFinset.mp hx, rfl⟩,
      Finset.mem_singleton_self x, Finset.mem_singleton_self x⟩
  · intro x y hsc
    rcases hsc with ⟨c, hc, hxc, hyc⟩
    rcases List.mem_map.mp hc with ⟨v, -, rfl⟩
    rw [Finset.mem_singleton.mp hxc, Finset.mem_singleton.mp hyc]
    exact Reach.refl v
  · unfold kruskal_init
    rw [List.length_map, List.toFinset_card_of_nodup hnd]
    simp

theorem same_comp_merge_mono {cs : List Component} {ca cb : Component}
    (hca : ca ∈ cs) (hcb : cb ∈ cs) {x y : ℕ}
    (hsc : same_comp cs x y) :
    same_comp ((cs.erase ca).erase cb ++ [ca ∪ cb]) x y := by
  rcases hsc with ⟨c, hc, hxc, hyc⟩
  by_cases h1 : c = ca
  · exact ⟨ca ∪ cb, List.mem_append_right _ (List.mem_singleton_self _),
      Finset.mem_union_left cb (h1 ▸ hxc), Finset.mem_union_left cb (h1 ▸ hyc)⟩
  by_cases h2 : c = cb
  · exact ⟨ca ∪ cb, List.mem_append_right _ (List.mem_singleton_self _),
      Finset.mem_union_right ca (h2 ▸ hxc), Finset.mem_union_right ca (h2 ▸ hyc)⟩
  · refine ⟨c, List.mem_append_left _ ?_, hxc, hyc⟩
    rw [List.mem_erase_of_ne h2, List.mem_erase_of_ne h1]
    exact hc

theorem same_comp_subset_V {V : Finset ℕ} {cs : List Component}
    (h : IsPartition V cs) {x y : ℕ} (hsc : same_comp cs x y) :
    x ∈ V ∧ y ∈ V := by
  rcases hsc with ⟨c, hc, hxc, hyc⟩
  exact ⟨h.2.2.2.1 c hc hxc, h.2.2.2.1 c hc hyc⟩

theorem engine_inv_merge {V : Finset ℕ} {cs : List Component} {I : List Edge}
    (inv : EngineInv V cs I) {e : Edge} (ha : e.a ∈ V) (hb : e.b ∈ V)
    (hnr : ¬ Reach I e.a e.b) :
    ∃ cs', check_edge cs e = some (1, cs') ∧ EngineInv V cs' (I ++ [e]) ∧
      cs'.length + 1 = cs.length := by
  have hnsc : ¬ same_comp cs e.a e.b := fun hsc => hnr (inv.reach_of_sc _ _ hsc)
  rcases check_edge_diff_comp inv.part ha hb hnsc with
    ⟨ca, cb, hca, hcb, hac, hbc, hne, hce⟩
  set cs' := (cs.erase ca).erase cb ++ [ca ∪ cb] with hcs'
  have hpart' : IsPartition V cs' := merge_partition inv.part hca hcb hne
  have hunion : ca ∪ cb ∈ cs' :=
    List.mem_append_right _ (List.mem_singleton_self _)
  have hsc_ab : same_comp cs' e.a e.b :=
    ⟨ca ∪ cb, hunion, Finset.mem_union_left cb hac, Finset.mem_union_right ca hbc⟩
  refine ⟨cs', hce, ⟨hpart', ?_, ?_, ?_, ?_, ?_⟩, merge_length inv.part.1 hca hcb hne⟩
  · intro f hf
    rcases List.mem_append.mp hf with hf | hf
    · exact inv.endpts f hf
    · rw [List.mem_singleton.mp hf]
      exact ⟨ha, hb⟩
  · -- sc_of_reach
    intro x y hx hr
    have key : ∀ u v : ℕ, Reach (I ++ [e]) u v →
        ((u ∈ V ∧ v ∈ V ∧ same_comp cs' u v) ∨ u = v) := by
      intro u v hr'
      refine @reach_closure _
        (fun u v => (u ∈ V ∧ v ∈ V ∧ same_comp cs' u v) ∨ u = v)
        ?_ ?_ ?_ ?_ u v hr'
      · intro w
        exact Or.inr rfl
      · rintro w w' (⟨h1, h2, h3⟩ | rfl)
        · exact Or.inl ⟨h2, h1, same_comp_symm h3⟩
        · exact Or.inr rfl
      · rintro u' v' w' (⟨h1, h2, h3⟩ | rfl) (⟨h4, h5, h6⟩ | rfl)
        · exact Or.inl ⟨h1, h5, same_comp_trans hpart' h3 h6⟩
        · exact Or.inl ⟨h1, h2, h3⟩
        · exact Or.inl ⟨h4, h5, h6⟩
        · exact Or.inr rfl
      · intro f hf
        rcases List.mem_append.mp hf with hf | hf
        · have hsc := inv.sc_of_reach f.a f.b (inv.endpts f hf).1
            (reach_single hf (Or.inl ⟨rfl, rfl⟩))
          exact Or.inl ⟨(inv.endpts f hf).1, (inv.endpts f hf).2,
            same_comp_merge_mono hca hcb hsc⟩
        · rw [List.mem_singleton.mp hf]
          exact Or.inl ⟨ha, hb, hsc_ab⟩
    rcases key x y hr with ⟨-, -, h3⟩ | rfl
    · exact h3
    · rcases hpart'.2.2.2.2 x hx with ⟨c, hc, hxc⟩
      exact ⟨c, hc, hxc, hxc⟩
  · -- reach_of_sc
    intro x y hsc
    rcases hsc with ⟨c, hc, hxc, hyc⟩
    rcases List.mem_append.mp hc with hc | hc
    · have hcs : c ∈ cs :=
        List.mem_of_mem_erase (List.mem_of_mem_erase hc)
      exact reach_mono (fun f hf => List.mem_append_left _ hf)
        (inv.reach_of_sc x y ⟨c, hcs, hxc, hyc⟩)
    · rw [List.mem_singleton.mp hc] at hxc hyc
      have hmemI : ∀ f ∈ I, f ∈ I ++ [e] := fun f hf => List.mem_append_left _ hf
      have hstep : Reach (I ++ [e]) e.a e.b :=
        reach_single (List.mem_append_right _ (List.mem_singleton_self _))
          (Or.inl ⟨rfl, rfl⟩)
      have reach_in : ∀ u : ℕ, u ∈ ca → Reach (I ++ [e]) u e.a := by
        intro u hu
        exact reach_mono hmemI (inv.reach_of_sc u e.a ⟨ca, hca, hu, hac⟩)
      have reach_in' : ∀ u : ℕ, u ∈ cb → Reach (I ++ [e]) u e.b := by
        intro u hu
        exact reach_mono hmemI (inv.reach_of_sc u e.b ⟨cb, hcb, hu, hbc⟩)
      rcases Finset.mem_union.mp hxc with hx' | hx' <;>
        rcases Finset.mem_union.mp hyc with hy' | hy'
      · exact reach_mono hmemI (inv.reach_of_sc x y ⟨ca, hca, hx', hy'⟩)
      · exact reach_trans (reach_in x hx')
          (reach_trans hstep (reach_symm (reach_in' y hy')))
      · exact reach_trans (reach_in' x hx')
          (reach_trans (reach_symm hstep) (reach_symm (reach_in y hy')))
      · exact reach_mono hmemI (inv.reach_of_sc x y ⟨cb, hcb, hx', hy'⟩)
  · -- acyclicity
    exact acyclic_append_singleton inv.acyc hnr
  · -- count
    have h1 := merge_length inv.part.1 hca hcb hne
    rw [List.length_append, List.length_singleton] at h1
    have h2 := inv.count
    rw [hcs', List.length_append, List.length_singleton,
      List.length_append, List.length_singleton]
    omega

theorem check_edge_excluded {V : Finset ℕ} {cs : List Component} {I : List Edge}
    (inv : EngineInv V cs I) {e : Edge} (ha : e.a ∈ V)
    (hr : Reach I e.a e.b) :
    check_edge cs e = some (-1, cs) :=
  check_edge_same_comp inv.part (inv.sc_of_reach e.a e.b ha hr)

/-! ### Helpers about included_edges -/

theorem included_edges_nil : included_edges [] = [] := rfl

theorem included_edges_cons_inc (e : Edge) (out : List (Edge × ℤ)) :
    included_edges ((e, 1) :: out) = e :: included_edges out := by
  unfold included_edges
  rw [List.filter_cons_of_pos (by simp)]
  rfl

theorem included_edges_cons_exc (e : Edge) (out : List (Edge × ℤ)) :
    included_edges ((e, -1) :: out) = included_edges out := by
  unfold included_edges
  rw [List.filter_cons_of_neg (by simp)]

/-! ### The master run lemma: invariant and classification facts for a
whole sorted run -/

theorem run_kruskal_master {V : Finset ℕ} (es : List Edge)
    (cs : List Component) (I : List Edge) (inv : EngineInv V cs I)
    (hend : ∀ e ∈ es, e.a ∈ V ∧ e.b ∈ V)
    (hsorted : es.Pairwise wle)
    (hpre : ∀ z ∈ I, ∀ e ∈ es, z.weight ≤ e.weight) :
    ∃ out csf, run_kruskal cs es = some (out, csf) ∧
      out.map Prod.fst = es ∧
      List.Sublist (included_edges out) es ∧
      EngineInv V csf (I ++ included_edges out) ∧
      (∀ p ∈ out, Reach (I ++ included_edges out) p.1.a p.1.b) ∧
      (∀ p ∈ out, p.2 = 1 ∨ p.2 = -1) ∧
      (∀ p ∈ out, p.1 ∈ I ++ included_edges out ∨
        Reach ((I ++ included_edges out).filter
          (fun z => decide (z.weight ≤ p.1.weight))) p.1.a p.1.b) := by
  induction es generalizing cs I with
  | nil =>
      refine ⟨[], cs, rfl, rfl, List.nil_sublist [], ?_, ?_, ?_, ?_⟩
      · rw [included_edges_nil, List.append_nil]
        exact inv
      · intro p hp; cases hp
      · intro p hp; cases hp
      · intro p hp; cases hp
  | cons e es ih =>
      have hae : e.a ∈ V := (hend e (List.mem_cons_self e es)).1
      have hbe : e.b ∈ V := (hend e (List.mem_cons_self e es)).2
      have hend' : ∀ f ∈ es, f.a ∈ V ∧ f.b ∈ V :=
        fun f hf => hend f (List.mem_cons_of_mem e hf)
      have hsorted' : es.Pairwise wle := (List.pairwise_cons.mp hsorted).2
      have hwle : ∀ f ∈ es, wle e f := (List.pairwise_cons.mp hsorted).1
      by_cases hreach : Reach I e.a e.b
      · -- the edge closes a cycle: classified -1, state unchanged
        have hce := check_edge_excluded inv hae hreach
        have hpre' : ∀ z ∈ I, ∀ f ∈ es, z.weight ≤ f.weight :=
          fun z hz f hf => hpre z hz f (List.mem_cons_of_mem e hf)
        rcases ih cs I inv hend' hsorted' hpre' with
          ⟨out, csf, hrun, hmap, hsub, hinv, hreachall, hstat, hopt⟩
        refine ⟨(e, -1) :: out, csf, ?_, ?_, ?_, ?_, ?_, ?_, ?_⟩
        · unfold run_kruskal
          simp only [hce, hrun]
        · simp [hmap]
        · rw [included_edges_cons_exc]
          exact hsub.cons e
        · rw [included_edges_cons_exc]
          exact hinv
        · intro p hp
          rw [included_edges_cons_exc]
          rcases List.mem_cons.mp hp with rfl | hp'
          · exact reach_mono (fun f hf => List.mem_append_left _ hf) hreach
          · exact hreachall p hp'
        · intro p hp
          rcases List.mem_cons.mp hp with rfl | hp'
          · exact Or.inr rfl
          · exact hstat p hp'
        · intro p hp
          rw [included_edges_cons_exc]
          rcases List.mem_cons.mp hp with rfl | hp'
          · right
            refine reach_mono ?_ hreach
            intro z hz
            rw [List.mem_filter]
            exact ⟨List.mem_append_left _ hz,
              decide_eq_true (hpre z hz e (List.mem_cons_self e es))⟩
          · exact hopt p hp'
      · -- the edge joins two components: classified 1, components merged
        rcases engine_inv_merge inv hae hbe hreach with ⟨cs', hce, hinv', hlen⟩
        have hpre' : ∀ z ∈ I ++ [e], ∀ f ∈ es, z.weight ≤ f.weight := by
          intro z hz f hf
          rcases List.mem_append.mp hz with hz | hz
          · exact hpre z hz f (List.mem_cons_of_mem e hf)
          · rw [List.mem_singleton.mp hz]
            exact hwle f hf
        rcases ih cs' (I ++ [e]) hinv' hend' hsorted' hpre' with
          ⟨out, csf, hrun, hmap, hsub, hinv2, hreachall, hstat, hopt⟩
        have hIe : ∀ l : List Edge, (I ++ [e]) ++ l = I ++ (e :: l) := by
          intro l
          rw [List.append_assoc]
          rfl
        refine ⟨(e, 1) :: out, csf, ?_, ?_, ?_, ?_, ?_, ?_, ?_⟩
        · unfold run_kruskal
          simp only [hce, hrun]
        · simp [hmap]
        · rw [included_edges_cons_inc]
          exact hsub.cons₂ e
        · rw [included_edges_cons_inc, ← hIe]
          exact hinv2
        · intro p hp
          rw [included_edges_cons_inc, ← hIe]
          rcases List.mem_cons.mp hp with rfl | hp'
          · exact reach_single
              (List.mem_append_left _
                (List.mem_append_right _ (List.mem_singleton_self e)))
              (Or.inl ⟨rfl, rfl⟩)
          · exact hreachall p hp'
        · intro p hp
          rcases List.mem_cons.mp hp with rfl | hp'
          · exact Or.inl rfl
          · exact hstat p hp'
        · intro p hp
          rw [included_edges_cons_inc, ← hIe]
          rcases List.mem_cons.mp hp with rfl | hp'
          · exact Or.inl (List.mem_append_left _
              (List.mem_append_right _ (List.mem_singleton_self e)))
          · exact hopt p hp'

/-- Existence and invariant preservation for a run over arbitrary (not
necessarily sorted) edges between snapshotted vertices. -/
theorem run_kruskal_partition {V : Finset ℕ} (es : List Edge)
    (cs : List Component) (I : List Edge) (inv : EngineInv V cs I)
    (hend : ∀ e ∈ es, e.a ∈ V ∧ e.b ∈ V) :
    ∃ out csf, run_kruskal cs es = some (out, csf) ∧
      EngineInv V csf (I ++ included_edges out) := by
  induction es generalizing cs I with
  | nil =>
      refine ⟨[], cs, rfl, ?_⟩
      rw [included_edges_nil, List.append_nil]
      exact inv
  | cons e es ih =>
      have hae : e.a ∈ V := (hend e (List.mem_cons_self e es)).1
      have hbe : e.b ∈ V := (hend e (List.mem_cons_self e es)).2
      have hend' : ∀ f ∈ es, f.a ∈ V ∧ f.b ∈ V :=
        fun f hf => hend f (List.mem_cons_of_mem e hf)
      by_cases hreach : Reach I e.a e.b
      · have hce := check_edge_excluded inv hae hreach
        rcases ih cs I inv hend' with ⟨out, csf, hrun, hinv⟩
        refine ⟨(e, -1) :: out, csf, ?_, ?_⟩
        · unfold run_kruskal
          simp only [hce, hrun]
        · rw [included_edges_cons_exc]
          exact hinv
      · rcases engine_inv_merge inv hae hbe hreach with ⟨cs', hce, hinv', -⟩
        rcases ih cs' (I ++ [e]) hinv' hend' with ⟨out, csf, hrun, hinv2⟩
        refine ⟨(e, 1) :: out, csf, ?_, ?_⟩
        · unfold run_kruskal
          simp only [hce, hrun]
        · rw [included_edges_cons_inc]
          have : (I ++ [e]) ++ included_edges out = I ++ (e :: included_edges out) := by
            rw [List.append_assoc]
            rfl
          rw [← this]
          exact hinv2

/-- **C2.** For an engine state that partitions the snapshotted vertex
set and an edge `e`: when both endpoints lie in one component,
`check_edge` classifies `e` as `Excluded` (`-1`) and leaves the partition
unchanged; when they lie in two distinct components, it classifies `e` as
`Included` (`1`) and replaces those two components by their union, so the
component count drops by exactly one; when an endpoint lies in no
component, `check_edge` raises (`InvalidEdge`, modelled `none`) and
classifies nothing. -/
theorem claim_C2 {V : Finset ℕ} {cs : List Component} (hp : IsPartition V cs)
    (e : Edge) :
    (same_comp cs e.a e.b → check_edge cs e = some (-1, cs)) ∧
    ((∃ ca ∈ cs, e.a ∈ ca) → (∃ cb ∈ cs, e.b ∈ cb) →
      ¬ same_comp cs e.a e.b →
      ∃ ca cb, ca ∈ cs ∧ cb ∈ cs ∧ e.a ∈ ca ∧ e.b ∈ cb ∧ ca ≠ cb ∧
        check_edge cs e = some (1, (cs.erase ca).erase cb ++ [ca ∪ cb]) ∧
        IsPartition V ((cs.erase ca).erase cb ++ [ca ∪ cb]) ∧
        ((cs.erase ca).erase cb ++ [ca ∪ cb]).length + 1 = cs.length) ∧
    (((∀ c ∈ cs, e.a ∉ c) ∨ (∀ c ∈ cs, e.b ∉ c)) →
      check_edge cs e = none) := by
  refine ⟨fun hsc => check_edge_same_comp hp hsc, ?_, check_edge_raises⟩
  rintro ⟨ca, hca, hac⟩ ⟨cb, hcb, hbc⟩ hnsc
  have haV : e.a ∈ V := hp.2.2.2.1 ca hca hac
  have hbV : e.b ∈ V := hp.2.2.2.1 cb hcb hbc
  rcases check_edge_diff_comp hp haV hbV hnsc with
    ⟨ca', cb', hca', hcb', hac', hbc', hne', hce'⟩
  exact ⟨ca', cb', hca', hcb', hac', hbc', hne', hce',
    merge_partition hp hca' hcb' hne', merge_length hp.1 hca' hcb' hne'⟩

/-- Witness for C2 at a concrete engine state. -/
theorem claim_C2_witness :
    IsPartition ({1, 2} : Finset ℕ) [{1}, {2}] ∧
    ((same_comp [{1}, {2}] (Edge.mk 1 2 5).a (Edge.mk 1 2 5).b →
      check_edge [{1}, {2}] (Edge.mk 1 2 5) = some (-1, [{1}, {2}])) ∧
    ((∃ ca ∈ [({1} : Component), {2}], (Edge.mk 1 2 5).a ∈ ca) →
      (∃ cb ∈ [({1} : Component), {2}], (Edge.mk 1 2 5).b ∈ cb) →
      ¬ same_comp [{1}, {2}] (Edge.mk 1 2 5).a (Edge.mk 1 2 5).b →
      ∃ ca cb, ca ∈ [({1} : Component), {2}] ∧ cb ∈ [({1} : Component), {2}] ∧
        (Edge.mk 1 2 5).a ∈ ca ∧ (Edge.mk 1 2 5).b ∈ cb ∧ ca ≠ cb ∧
        check_edge [{1}, {2}] (Edge.mk 1 2 5) =
          some (1, ([({1} : Component), {2}].erase ca).erase cb ++ [ca ∪ cb]) ∧
        IsPartition ({1, 2} : Finset ℕ)
          (([({1} : Component), {2}].erase ca).erase cb ++ [ca ∪ cb]) ∧
        (([({1} : Component), {2}].erase ca).erase cb ++ [ca ∪ cb]).length + 1 =
          [({1} : Component), {2}].length) ∧
    (((∀ c ∈ [({1} : Component), {2}], (Edge.mk 1 2 5).a ∉ c) ∨
        (∀ c ∈ [({1} : Component), {2}], (Edge.mk 1 2 5).b ∉ c)) →
      check_edge [{1}, {2}] (Edge.mk 1 2 5) = none)) :=
  ⟨by decide, claim_C2 (by decide) (Edge.mk 1 2 5)⟩

/-- **C3.** The component tracker always partitions the snapshotted
vertex set: right after initialization the components are exactly the
singletons of the vertices, and after any sequence of `check_edge` calls
on edges between snapshotted vertices the components are duplicate-free,
pairwise-disjoint, non-empty sets covering exactly the vertex set. -/
theorem claim_C3 {vs : List ℕ} (hnd : vs.Nodup) (es : List Edge)
    (hend : ∀ e ∈ es, e.a ∈ vs.toFinset ∧ e.b ∈ vs.toFinset) :
    (∀ c, c ∈ kruskal_init vs ↔ ∃ v ∈ vs, c = {v}) ∧
    IsPartition vs.toFinset (kruskal_init vs) ∧
    ∃ out csf, run_kruskal (kruskal_init vs) es = some (out, csf) ∧
      IsPartition vs.toFinset csf := by
  refine ⟨?_, kruskal_init_partition hnd, ?_⟩
  · intro c
    unfold kruskal_init
    rw [List.mem_map]
    constructor
    · rintro ⟨v, hv, rfl⟩
      exact ⟨v, hv, rfl⟩
    · rintro ⟨v, hv, rfl⟩
      exact ⟨v, hv, rfl⟩
  · rcases run_kruskal_partition es (kruskal_init vs) [] (engine_inv_init hnd)
      hend with ⟨out, csf, hrun, hinv⟩
    exact ⟨out, csf, hrun, hinv.part⟩

/-- Witness for C3 at a concrete two-vertex, one-edge run. -/
theorem claim_C3_witness :
    ([1, 2] : List ℕ).Nodup ∧
    (∀ e ∈ [Edge.mk 1 2 4], e.a ∈ ([1, 2] : List ℕ).toFinset ∧
      e.b ∈ ([1, 2] : List ℕ).toFinset) ∧
    ((∀ c, c ∈ kruskal_init [1, 2] ↔ ∃ v ∈ ([1, 2] : List ℕ), c = {v}) ∧
    IsPartition ([1, 2] : List ℕ).toFinset (kruskal_init [1, 2]) ∧
    ∃ out csf, run_kruskal (kruskal_init [1, 2]) [Edge.mk 1 2 4] =
        some (out, csf) ∧
      IsPartition ([1, 2] : List ℕ).toFinset csf) :=
  ⟨by decide, by decide, claim_C3 (by decide) [Edge.mk 1 2 4] (by decide)⟩

/-- **C4 counterexample.** The claim asserts that initializing the engine
on a graph with an empty vertex set fails with `EmptyGraph`.  The
constructor `Kruskal.__init__` contains no such check (no `EmptyGraph`
error exists anywhere in the code): on an empty vertex set it succeeds
and produces the engine state with no components, on which the run over
the (empty) edge list also succeeds. -/
theorem claim_C4_counterexample :
    kruskal_init [] = ([] : List Component) ∧
    run_kruskal (kruskal_init []) [] = some ([], []) := ⟨rfl, rfl⟩

/-- **C4 (amended).** Initializing the Kruskal engine never fails: for
every graph it snapshots the vertex set into singleton components; for an
empty vertex set this yields the engine state with no components (no
`EmptyGraph` failure occurs). -/
theorem claim_C4 {vs : List ℕ} (hnd : vs.Nodup) :
    (∀ c, c ∈ kruskal_init vs ↔ ∃ v ∈ vs, c = {v}) ∧
    IsPartition vs.toFinset (kruskal_init vs) ∧
    (vs = [] → kruskal_init vs = []) := by
  refine ⟨?_, kruskal_init_partition hnd, ?_⟩
  · intro c
    unfold kruskal_init
    rw [List.mem_map]
    constructor
    · rintro ⟨v, hv, rfl⟩
      exact ⟨v, hv, rfl⟩
    · rintro ⟨v, hv, rfl⟩
      exact ⟨v, hv, rfl⟩
  · rintro rfl
    rfl

/-- Witness for the amended C4 on the empty vertex list. -/
theorem claim_C4_witness :
    ([] : List ℕ).Nodup ∧
    ((∀ c, c ∈ kruskal_init [] ↔ ∃ v ∈ ([] : List ℕ), c = {v}) ∧
    IsPartition ([] : List ℕ).toFinset (kruskal_init []) ∧
    (([] : List ℕ) = [] → kruskal_init [] = [])) :=
  ⟨by decide, claim_C4 (by decide)⟩

/-- **C10.** The engine does not remember which edges it has checked: if
`check_edge` classified `e` as `Included` (merging its endpoints'
components), a second `check_edge` call on the same edge finds both
endpoints in the merged component, reclassifies `e` as `Excluded`, and
leaves the partition unchanged. -/
theorem claim_C10 {V : Finset ℕ} {cs cs' : List Component} {e : Edge}
    (hp : IsPartition V cs) (h : check_edge cs e = some (1, cs')) :
    check_edge cs' e = some (-1, cs') := by
  by_cases hsc : same_comp cs e.a e.b
  · rw [check_edge_same_comp hp hsc] at h
    simp at h
  · rcases hfa : find_comp cs e.a with - | ca
    · rw [check_edge_raises (Or.inl (find_comp_none_iff.mp hfa))] at h
      cases h
    rcases hfb : find_comp cs e.b with - | cb
    · rw [check_edge_raises (Or.inr (find_comp_none_iff.mp hfb))] at h
      cases h
    have haV : e.a ∈ V := hp.2.2.2.1 ca (find_comp_mem hfa).1 (find_comp_mem hfa).2
    have hbV : e.b ∈ V := hp.2.2.2.1 cb (find_comp_mem hfb).1 (find_comp_mem hfb).2
    rcases check_edge_diff_comp hp haV hbV hsc with
      ⟨ca', cb', hca', hcb', hac', hbc', hne', hce'⟩
    have hEq : ((1 : ℤ), (cs.erase ca').erase cb' ++ [ca' ∪ cb']) = (1, cs') :=
      Option.some.inj (hce'.symm.trans h)
    have hcs' : cs' = (cs.erase ca').erase cb' ++ [ca' ∪ cb'] :=
      ((Prod.ext_iff.mp hEq).2).symm
    subst hcs'
    have hp' : IsPartition V ((cs.erase ca').erase cb' ++ [ca' ∪ cb']) :=
      merge_partition hp hca' hcb' hne'
    refine check_edge_same_comp hp' ?_
    exact ⟨ca' ∪ cb', List.mem_append_right _ (List.mem_singleton_self _),
      Finset.mem_union_left cb' hac', Finset.mem_union_right ca' hbc'⟩

/-- Witness for C10: include an edge on a fresh two-singleton state, then
check it again. -/
theorem claim_C10_witness :
    IsPartition ({1, 2} : Finset ℕ) [{1}, {2}] ∧
    check_edge [{1}, {2}] (Edge.mk 1 2 4) = some (1, [{1, 2}]) ∧
    check_edge [({1, 2} : Component)] (Edge.mk 1 2 4) = some (-1, [{1, 2}]) :=
  ⟨by decide, by decide,
    @claim_C10 {1, 2} [{1}, {2}] [{1, 2}] (Edge.mk 1 2 4)
      (by decide) (by decide)⟩

/-! ### Sorting facts and permutation invariance -/

theorem get_sorted_edges_perm (es : List Edge) :
    (get_sorted_edges es).Perm es :=
  List.perm_insertionSort wle es

theorem get_sorted_edges_sorted (es : List Edge) :
    (get_sorted_edges es).Pairwise wle :=
  List.sorted_insertionSort wle es

theorem acyclic_perm {F F' : List Edge} (hperm : F.Perm F')
    (h : Acyclic F) : Acyclic F' :=
  acyclic_subset (fun e he => hperm.mem_iff.mpr he)
    (hperm.nodup_iff.mp (acyclic_nodup h)) h

theorem reach_perm {F F' : List Edge} (hperm : F.Perm F') {x y : ℕ} :
    Reach F x y ↔ Reach F' x y :=
  reach_congr (fun f => hperm.mem_iff)

theorem weight_of_perm {F F' : List Edge} (hperm : F.Perm F') :
    weight_of F = weight_of F' :=
  (hperm.map Edge.weight).sum_eq

/-! ### A run over an acyclic edge list includes every edge -/

theorem mem_included_iff {out : List (Edge × ℤ)} {e : Edge} :
    e ∈ included_edges out ↔ (e, (1 : ℤ)) ∈ out := by
  unfold included_edges
  rw [List.mem_map]
  constructor
  · rintro ⟨p, hp, rfl⟩
    rw [List.mem_filter] at hp
    have h2 : p.2 = 1 := of_decide_eq_true hp.2
    have : p = (p.1, (1 : ℤ)) := by
      rw [← h2]
    exact this ▸ hp.1
  · intro h
    exact ⟨(e, 1), List.mem_filter.mpr ⟨h, by simp⟩, rfl⟩

theorem acyclic_run_includes_all {vs : List ℕ} (hnd : vs.Nodup)
    {F : List Edge} (hacyc : Acyclic F)
    (hend : ∀ e ∈ F, e.a ∈ vs.toFinset ∧ e.b ∈ vs.toFinset) :
    ∃ out csf,
      run_kruskal (kruskal_init vs) (get_sorted_edges F) = some (out, csf) ∧
      included_edges out = get_sorted_edges F ∧
      EngineInv vs.toFinset csf (included_edges out) ∧
      csf.length + F.length = vs.length := by
  have hperm := get_sorted_edges_perm F
  have hndF : F.Nodup := acyclic_nodup hacyc
  have hndFs : (get_sorted_edges F).Nodup := hperm.nodup_iff.mpr hndF
  have hend' : ∀ e ∈ get_sorted_edges F,
      e.a ∈ vs.toFinset ∧ e.b ∈ vs.toFinset :=
    fun e he => hend e (hperm.mem_iff.mp he)
  rcases run_kruskal_master (get_sorted_edges F) (kruskal_init vs) []
      (engine_inv_init hnd) hend' (get_sorted_edges_sorted F)
      (by intro z hz; cases hz) with
    ⟨out, csf, hrun, hmap, hsub, hinv, hreachall, hstat, hopt⟩
  rw [List.nil_append] at hinv hreachall hopt
  have hall : ∀ p ∈ out, p.2 = 1 := by
    intro p hp
    rcases hstat p hp with h1 | hm1
    · exact h1
    · exfalso
      have hmemF : p.1 ∈ F := by
        refine hperm.mem_iff.mp ?_
        rw [← hmap]
        exact List.mem_map.mpr ⟨p, hp, rfl⟩
      have hnotincl : p.1 ∉ included_edges out := by
        intro hincl
        have h1mem : (p.1, (1 : ℤ)) ∈ out := mem_included_iff.mp hincl
        have hfun := List.inj_on_of_nodup_map (hmap ▸ hndFs)
        have : p = (p.1, (1 : ℤ)) := hfun hp h1mem rfl
        rw [this] at hm1
        simp at hm1
      rcases hopt p hp with h | h
      · exact hnotincl h
      · refine hacyc p.1 hmemF (reach_mono ?_ h)
        intro z hz
        rw [List.mem_filter] at hz
        have hzincl : z ∈ included_edges out := hz.1
        have hzF : z ∈ F := by
          refine hperm.mem_iff.mp (hsub.subset hzincl)
        have hzne : z ≠ p.1 := by
          intro rfl'
          exact hnotincl (rfl' ▸ hzincl)
        exact (List.mem_erase_of_ne hzne).mpr hzF
  have hincl : included_edges out = get_sorted_edges F := by
    unfold included_edges
    rw [List.filter_eq_self.mpr (fun p hp => decide_eq_true (hall p hp)), hmap]
  refine ⟨out, csf, hrun, hincl, hinv, ?_⟩
  have hcount := hinv.count
  rw [hincl] at hcount
  rw [hperm.length_eq] at hcount
  rw [List.toFinset_card_of_nodup hnd] at hcount
  exact hcount

/-! ### Finer partitions have at least as many components -/

theorem partition_card_le {V : Finset ℕ} {P Q : List Component}
    (hP : IsPartition V P) (hQ : IsPartition V Q)
    (href : ∀ x y : ℕ, same_comp Q x y → same_comp P x y) :
    P.length ≤ Q.length := by
  classical
  set pick : Component → ℕ := fun d => if h : d.Nonempty then d.min' h else 0
    with hpick
  set f : Component → Component := fun d => (find_comp Q (pick d)).getD ∅
    with hf
  have hpick_mem : ∀ d ∈ P, pick d ∈ d := by
    intro d hd
    have hne : d.Nonempty := hP.2.1 d hd
    rw [hpick]
    simp only [dif_pos hne]
    exact d.min'_mem hne
  have hfind : ∀ d ∈ P, ∃ c, find_comp Q (pick d) = some c ∧ c ∈ Q ∧
      pick d ∈ c := by
    intro d hd
    have hV : pick d ∈ V := hP.2.2.2.1 d hd (hpick_mem d hd)
    exact partition_find hQ hV
  have hmaps : ∀ d ∈ P.toFinset, f d ∈ Q.toFinset := by
    intro d hd
    rcases hfind d (List.mem_toFinset.mp hd) with ⟨c, hc, hcQ, -⟩
    rw [hf]
    simp only [hc, Option.getD_some]
    exact List.mem_toFinset.mpr hcQ
  have hinj : Set.InjOn f ↑P.toFinset := by
    intro d1 hd1 d2 hd2 heq
    have hd1' : d1 ∈ P := List.mem_toFinset.mp (Finset.mem_coe.mp hd1)
    have hd2' : d2 ∈ P := List.mem_toFinset.mp (Finset.mem_coe.mp hd2)
    rcases hfind d1 hd1' with ⟨c1, hc1, hc1Q, hp1⟩
    rcases hfind d2 hd2' with ⟨c2, hc2, hc2Q, hp2⟩
    have hceq : c1 = c2 := by
      have h1 : f d1 = c1 := by rw [hf]; simp only [hc1, Option.getD_some]
      have h2 : f d2 = c2 := by rw [hf]; simp only [hc2, Option.getD_some]
      rw [← h1, ← h2, heq]
    have hscQ : same_comp Q (pick d1) (pick d2) :=
      ⟨c1, hc1Q, hp1, hceq ▸ hp2⟩
    have hscP : same_comp P (pick d1) (pick d2) := href _ _ hscQ
    rcases hscP with ⟨c, hc, hpc1, hpc2⟩
    have he1 : d1 = c :=
      partition_eq_of_mem hP hd1' hc (hpick_mem d1 hd1') hpc1
    have he2 : d2 = c :=
      partition_eq_of_mem hP hd2' hc (hpick_mem d2 hd2') hpc2
    rw [he1, he2]
  have hcard : P.toFinset.card ≤ Q.toFinset.card :=
    Finset.card_le_card_of_injOn f hmaps hinj
  rw [List.toFinset_card_of_nodup hP.1, List.toFinset_card_of_nodup hQ.1]
    at hcard
  exact hcard

/-! ### The exchange property of acyclic edge sets -/

theorem acyclic_exchange {vs : List ℕ} (hnd : vs.Nodup) {A B : List Edge}
    (hA : Acyclic A) (hB : Acyclic B)
    (hendA : ∀ e ∈ A, e.a ∈ vs.toFinset ∧ e.b ∈ vs.toFinset)
    (hendB : ∀ e ∈ B, e.a ∈ vs.toFinset ∧ e.b ∈ vs.toFinset)
    (hlen : A.length < B.length) :
    ∃ y ∈ B, y ∉ A ∧ ¬ Reach A y.a y.b := by
  by_contra habs
  push_neg at habs
  have hgen : ∀ y ∈ B, Reach A y.a y.b := by
    intro y hy
    by_cases hyA : y ∈ A
    · exact reach_single hyA (Or.inl ⟨rfl, rfl⟩)
    · exact habs y hy hyA
  have hBA : ∀ x y : ℕ, Reach B x y → Reach A x y := by
    intro x y h
    exact reach_closure (fun x => Reach.refl x) (fun h => reach_symm h)
      (fun h h' => reach_trans h h') hgen h
  rcases acyclic_run_includes_all hnd hA hendA with
    ⟨outA, PA, hrunA, hinclA, hinvA, hcntA⟩
  rcases acyclic_run_includes_all hnd hB hendB with
    ⟨outB, PB, hrunB, hinclB, hinvB, hcntB⟩
  have hrefine : ∀ x y : ℕ, same_comp PB x y → same_comp PA x y := by
    intro x y hsc
    have hr : Reach (included_edges outB) x y := hinvB.reach_of_sc x y hsc
    rw [hinclB] at hr
    have hrB : Reach B x y := (reach_perm (get_sorted_edges_perm B)).mp hr
    have hrA : Reach A x y := hBA x y hrB
    have hxV : x ∈ vs.toFinset := (same_comp_subset_V hinvB.part hsc).1
    have hrA' : Reach (included_edges outA) x y := by
      rw [hinclA]
      exact (reach_perm (get_sorted_edges_perm A)).mpr hrA
    exact hinvA.sc_of_reach x y hxV hrA'
  have hle : PA.length ≤ PB.length :=
    partition_card_le hinvA.part hinvB.part hrefine
  omega

/-! ### Final-state facts for the sorted greedy run -/

theorem kruskal_run_spec {vs : List ℕ} (hnd : vs.Nodup) (es : List Edge)
    (hend : ∀ e ∈ es, e.a ∈ vs.toFinset ∧ e.b ∈ vs.toFinset) :
    ∃ out csf,
      run_kruskal (kruskal_init vs) (get_sorted_edges es) = some (out, csf) ∧
      Acyclic (included_edges out) ∧
      (included_edges out).Pairwise wle ∧
      (∀ e ∈ included_edges out, e ∈ es) ∧
      (∀ e ∈ es, Reach (included_edges out) e.a e.b) ∧
      (∀ y ∈ es, y ∈ included_edges out ∨
        Reach ((included_edges out).filter
          (fun z => decide (z.weight ≤ y.weight))) y.a y.b) := by
  have hperm := get_sorted_edges_perm es
  have hend' : ∀ e ∈ get_sorted_edges es,
      e.a ∈ vs.toFinset ∧ e.b ∈ vs.toFinset :=
    fun e he => hend e (hperm.mem_iff.mp he)
  rcases run_kruskal_master (get_sorted_edges es) (kruskal_init vs) []
      (engine_inv_init hnd) hend' (get_sorted_edges_sorted es)
      (by intro z hz; cases hz) with
    ⟨out, csf, hrun, hmap, hsub, hinv, hreachall, hstat, hopt⟩
  rw [List.nil_append] at hinv hreachall hopt
  have hentry : ∀ e ∈ es, ∃ p ∈ out, p.1 = e := by
    intro e he
    have : e ∈ out.map Prod.fst := by
      rw [hmap]
      exact hperm.mem_iff.mpr he
    rcases List.mem_map.mp this with ⟨p, hp, hpe⟩
    exact ⟨p, hp, hpe⟩
  refine ⟨out, csf, hrun, hinv.acyc,
    List.Pairwise.sublist hsub (get_sorted_edges_sorted es), ?_, ?_, ?_⟩
  · intro e he
    exact hperm.mem_iff.mp (hsub.subset he)
  · intro e he
    rcases hentry e he with ⟨p, hp, rfl⟩
    exact hreachall p hp
  · intro y hy
    rcases hentry y hy with ⟨p, hp, rfl⟩
    exact hopt p hp

/-! ### All spanning forests have the greedy solution's size -/

theorem greedy_length_eq {vs : List ℕ} (hnd : vs.Nodup) {es I B : List Edge}
    (hIacyc : Acyclic I) (hImax : ∀ e ∈ es, Reach I e.a e.b)
    (hIsub : ∀ e ∈ I, e ∈ es)
    (hendV : ∀ e ∈ es, e.a ∈ vs.toFinset ∧ e.b ∈ vs.toFinset)
    (hB : IsSpanningForest es B) :
    I.length = B.length := by
  obtain ⟨hBsub, hBacyc, hBspan⟩ := hB
  have hendI : ∀ e ∈ I, e.a ∈ vs.toFinset ∧ e.b ∈ vs.toFinset :=
    fun e he => hendV e (hIsub e he)
  have hendB : ∀ e ∈ B, e.a ∈ vs.toFinset ∧ e.b ∈ vs.toFinset :=
    fun e he => hendV e (hBsub e he)
  by_contra hne
  rcases Nat.lt_or_ge I.length B.length with hlt | hge
  · rcases acyclic_exchange hnd hIacyc hBacyc hendI hendB hlt with
      ⟨y, hyB, -, hnr⟩
    exact hnr (hImax y (hBsub y hyB))
  · have hlt : B.length < I.length := lt_of_le_of_ne hge (fun h => hne h.symm)
    rcases acyclic_exchange hnd hBacyc hIacyc hendB hendI hlt with
      ⟨y, hyI, -, hnr⟩
    have hyes : y ∈ es := hIsub y hyI
    exact hnr ((hBspan y.a y.b).mp (reach_single hyes (Or.inl ⟨rfl, rfl⟩)))

/-! ### Sorted position comparisons -/

theorem sorted_mem_take {I : List Edge} (hs : I.Pairwise wle) {z : Edge}
    (hz : z ∈ I) {i : ℕ} (hi : i < I.length)
    (hw : z.weight < (I.get ⟨i, hi⟩).weight) : z ∈ I.take i := by
  rcases List.mem_iff_get.mp hz with ⟨⟨j, hj⟩, hget⟩
  have hji : j < i := by
    by_contra hge
    push_neg at hge
    rcases Nat.lt_or_ge i j with hij | hij
    · have := List.pairwise_iff_get.mp hs ⟨i, hi⟩ ⟨j, hj⟩ hij
      rw [hget] at this
      exact absurd hw (not_lt.mpr this)
    · have hie : i = j := le_antisymm hge hij
      subst hie
      rw [hget] at hw
      exact lt_irrefl _ hw
  have htake := List.get_take I hj hji
  rw [hget] at htake
  rw [htake]
  exact List.get_mem _ _ _

theorem greedy_pointwise {vs : List ℕ} (hnd : vs.Nodup) {es I B' : List Edge}
    (hIacyc : Acyclic I) (hIsorted : I.Pairwise wle)
    (hIsub : ∀ e ∈ I, e ∈ es)
    (hopt : ∀ y ∈ es, y ∈ I ∨
      Reach (I.filter (fun z => decide (z.weight ≤ y.weight))) y.a y.b)
    (hendV : ∀ e ∈ es, e.a ∈ vs.toFinset ∧ e.b ∈ vs.toFinset)
    (hB'acyc : Acyclic B') (hB'sorted : B'.Pairwise wle)
    (hB'sub : ∀ e ∈ B', e ∈ es)
    {i : ℕ} (hi : i < I.length) (hi' : i < B'.length) :
    (I.get ⟨i, hi⟩).weight ≤ (B'.get ⟨i, hi'⟩).weight := by
  by_contra hlt
  push_neg at hlt
  have hndI : I.Nodup := acyclic_nodup hIacyc
  have hndB' : B'.Nodup := acyclic_nodup hB'acyc
  have hAacyc : Acyclic (I.take i) :=
    acyclic_subset (fun e he => (List.take_sublist i I).subset he)
      (hndI.sublist (List.take_sublist i I)) hIacyc
  have hBiacyc : Acyclic (B'.take (i + 1)) :=
    acyclic_subset (fun e he => (List.take_sublist (i + 1) B').subset he)
      (hndB'.sublist (List.take_sublist (i + 1) B')) hB'acyc
  have hendA : ∀ e ∈ I.take i, e.a ∈ vs.toFinset ∧ e.b ∈ vs.toFinset :=
    fun e he => hendV e (hIsub e ((List.take_sublist i I).subset he))
  have hendBi : ∀ e ∈ B'.take (i + 1),
      e.a ∈ vs.toFinset ∧ e.b ∈ vs.toFinset :=
    fun e he => hendV e (hB'sub e ((List.take_sublist (i + 1) B').subset he))
  have hlenA : (I.take i).length = i := by
    rw [List.length_take]
    omega
  have hlenBi : (B'.take (i + 1)).length = i + 1 := by
    rw [List.length_take]
    omega
  have hlens : (I.take i).length < (B'.take (i + 1)).length := by
    rw [hlenA, hlenBi]
    omega
  rcases acyclic_exchange hnd hAacyc hBiacyc hendA hendBi hlens with
    ⟨y, hyBi, hyA, hnr⟩
  have hyB' : y ∈ B' := (List.take_sublist (i + 1) B').subset hyBi
  have hyes : y ∈ es := hB'sub y hyB'
  have hwy_le : y.weight ≤ (B'.get ⟨i, hi'⟩).weight := by
    rcases List.mem_iff_get.mp hyBi with ⟨⟨j, hj⟩, hget⟩
    have hji : j < i + 1 := by
      rw [hlenBi] at hj
      exact hj
    have hjB : j < B'.length := by omega
    have hy' : B'.get ⟨j, hjB⟩ = y := (List.get_take B' hjB hji).trans hget
    rw [← hy']
    rcases Nat.lt_or_ge j i with hlt' | hge
    · exact List.pairwise_iff_get.mp hB'sorted ⟨j, hjB⟩ ⟨i, hi'⟩ hlt'
    · have hji' : j = i := by omega
      subst hji'
      exact le_refl _
  have hwy_lt : y.weight < (I.get ⟨i, hi⟩).weight :=
    lt_of_le_of_lt hwy_le hlt
  rcases hopt y hyes with hyI | hr
  · exact hyA (sorted_mem_take hIsorted hyI hi hwy_lt)
  · refine hnr (reach_mono ?_ hr)
    intro z hz
    rw [List.mem_filter] at hz
    have hzw : z.weight ≤ y.weight := of_decide_eq_true hz.2
    exact sorted_mem_take hIsorted hz.1 hi (lt_of_le_of_lt hzw hwy_lt)

/-! ### Summation of pointwise bounds -/

theorem sum_le_sum_pointwise : ∀ (l1 l2 : List ℤ), l1.length = l2.length →
    (∀ (i : ℕ) (h1 : i < l1.length) (h2 : i < l2.length),
      l1.get ⟨i, h1⟩ ≤ l2.get ⟨i, h2⟩) →
    l1.sum ≤ l2.sum := by
  intro l1
  induction l1 with
  | nil =>
      intro l2 hlen _
      have : l2 = [] := List.length_eq_zero.mp hlen.symm
      subst this
      exact le_refl 0
  | cons a l ih =>
      intro l2 hlen hpt
      cases l2 with
      | nil => simp at hlen
      | cons b l2' =>
          have hhead : a ≤ b := hpt 0 (by simp) (by simp)
          have htail : l.sum ≤ l2'.sum := by
            refine ih l2' (by simpa using hlen) ?_
            intro i h1 h2
            exact hpt (i + 1) (by simpa using Nat.succ_lt_succ h1)
              (by simpa using Nat.succ_lt_succ h2)
          rw [List.sum_cons, List.sum_cons]
          exact add_le_add hhead htail

theorem greedy_min_weight {vs : List ℕ} (hnd : vs.Nodup) {es I : List Edge}
    (hIacyc : Acyclic I) (hIsorted : I.Pairwise wle)
    (hIsub : ∀ e ∈ I, e ∈ es)
    (hImax : ∀ e ∈ es, Reach I e.a e.b)
    (hopt : ∀ y ∈ es, y ∈ I ∨
      Reach (I.filter (fun z => decide (z.weight ≤ y.weight))) y.a y.b)
    (hendV : ∀ e ∈ es, e.a ∈ vs.toFinset ∧ e.b ∈ vs.toFinset)
    {B : List Edge} (hB : IsSpanningForest es B) :
    weight_of I ≤ weight_of B := by
  set B' := get_sorted_edges B with hB'
  have hpermB : B'.Perm B := get_sorted_edges_perm B
  have hB'acyc : Acyclic B' := acyclic_perm hpermB.symm hB.2.1
  have hB'sorted : B'.Pairwise wle := get_sorted_edges_sorted B
  have hB'sub : ∀ e ∈ B', e ∈ es := fun e he => hB.1 e (hpermB.mem_iff.mp he)
  have hlen : I.length = B'.length := by
    rw [(greedy_length_eq hnd hIacyc hImax hIsub hendV hB : I.length = B.length)]
    exact hpermB.length_eq.symm
  have hsum : (I.map Edge.weight).sum ≤ (B'.map Edge.weight).sum := by
    refine sum_le_sum_pointwise _ _ (by rw [List.length_map, List.length_map, hlen]) ?_
    intro i h1 h2
    have h1' : i < I.length := by
      rw [List.length_map] at h1
      exact h1
    have h2' : i < B'.length := by
      rw [List.length_map] at h2
      exact h2
    have := greedy_pointwise hnd hIacyc hIsorted hIsub hopt hendV
      hB'acyc hB'sorted hB'sub h1' h2'
    rw [List.get_map, List.get_map]
    exact this
  have : weight_of I ≤ weight_of B' := hsum
  rw [weight_of_perm hpermB] at this
  exact this

/-- **C1.** For every graph whose vertex set has been snapshotted into
singleton components, feeding all edges in ascending-weight order (as
produced by `get_sorted_edges`) through repeated `check_edge` calls
classifies as `Included` a subset of edges forming a minimum spanning
forest; when the graph is connected, the included-weight sum
(`spanning_weight()`) equals the minimum-spanning-tree weight.  In
particular, on the triangle with weights (v1v2=1, v2v3=2, v1v3=3) the
classifications are Included, Included, Excluded and the spanning weight
is 3. -/
theorem claim_C1 {vs : List ℕ} (hnd : vs.Nodup) (es : List Edge)
    (hend : ∀ e ∈ es, e.a ∈ vs.toFinset ∧ e.b ∈ vs.toFinset) :
    (∃ out csf,
      run_kruskal (kruskal_init vs) (get_sorted_edges es) = some (out, csf) ∧
      IsMSF es (included_edges out) ∧
      (ConnectedG vs.toFinset es → ∀ T, IsMST vs.toFinset es T →
        kruskal_weight out = weight_of T)) ∧
    (run_kruskal (kruskal_init [1, 2, 3])
        (get_sorted_edges [Edge.mk 1 2 1, Edge.mk 2 3 2, Edge.mk 1 3 3]) =
      some ([(Edge.mk 1 2 1, 1), (Edge.mk 2 3 2, 1), (Edge.mk 1 3 3, -1)],
        [({1, 2, 3} : Component)]) ∧
      kruskal_weight
        [(Edge.mk 1 2 1, 1), (Edge.mk 2 3 2, 1), (Edge.mk 1 3 3, -1)] = 3) := by
  refine ⟨?_, by decide, by decide⟩
  rcases kruskal_run_spec hnd es hend with
    ⟨out, csf, hrun, hacyc, hsorted, hsubes, hmax, hopt⟩
  have hspan : ∀ x y : ℕ, Reach es x y ↔ Reach (included_edges out) x y := by
    intro x y
    constructor
    · intro h
      exact reach_closure (fun x => Reach.refl x) (fun h => reach_symm h)
        (fun h h' => reach_trans h h') hmax h
    · intro h
      exact reach_mono hsubes h
  have hsf : IsSpanningForest es (included_edges out) := ⟨hsubes, hacyc, hspan⟩
  refine ⟨out, csf, hrun, ⟨hsf, ?_⟩, ?_⟩
  · intro F' hF'
    exact greedy_min_weight hnd hacyc hsorted hsubes hmax hopt hend hF'
  · intro hconn T hT
    have le1 : weight_of (included_edges out) ≤ weight_of T :=
      greedy_min_weight hnd hacyc hsorted hsubes hmax hopt hend hT.1.1
    have hIconn : ConnectedG vs.toFinset (included_edges out) := by
      intro x hx y hy
      exact (hspan x y).mp (hconn x hx y hy)
    have le2 : weight_of T ≤ weight_of (included_edges out) :=
      hT.2 (included_edges out) ⟨hsf, hIconn⟩
    exact le_antisymm le1 le2

/-- Witness for C1 at the triangle graph of the specification. -/
theorem claim_C1_witness :
    ([1, 2, 3] : List ℕ).Nodup ∧
    (∀ e ∈ [Edge.mk 1 2 1, Edge.mk 2 3 2, Edge.mk 1 3 3],
      e.a ∈ ([1, 2, 3] : List ℕ).toFinset ∧
      e.b ∈ ([1, 2, 3] : List ℕ).toFinset) ∧
    ((∃ out csf,
      run_kruskal (kruskal_init [1, 2, 3])
          (get_sorted_edges [Edge.mk 1 2 1, Edge.mk 2 3 2, Edge.mk 1 3 3]) =
        some (out, csf) ∧
      IsMSF [Edge.mk 1 2 1, Edge.mk 2 3 2, Edge.mk 1 3 3]
        (included_edges out) ∧
      (ConnectedG ([1, 2, 3] : List ℕ).toFinset
          [Edge.mk 1 2 1, Edge.mk 2 3 2, Edge.mk 1 3 3] →
        ∀ T, IsMST ([1, 2, 3] : List ℕ).toFinset
            [Edge.mk 1 2 1, Edge.mk 2 3 2, Edge.mk 1 3 3] T →
          kruskal_weight out = weight_of T)) ∧
    (run_kruskal (kruskal_init [1, 2, 3])
        (get_sorted_edges [Edge.mk 1 2 1, Edge.mk 2 3 2, Edge.mk 1 3 3]) =
      some ([(Edge.mk 1 2 1, 1), (Edge.mk 2 3 2, 1), (Edge.mk 1 3 3, -1)],
        [({1, 2, 3} : Component)]) ∧
      kruskal_weight
        [(Edge.mk 1 2 1, 1), (Edge.mk 2 3 2, 1), (Edge.mk 1 3 3, -1)] = 3)) :=
  ⟨by decide, by decide,
    claim_C1 (by decide) [Edge.mk 1 2 1, Edge.mk 2 3 2, Edge.mk 1 3 3]
      (by decide)⟩

/-! ### Atomicity of the Graph mutators -/

/-- **C9.** Every `Graph` mutator is atomic per call: each one checks its
precondition before touching any state, so a failing call (`UnknownVertex`
or `UnknownEdge`) returns the graph exactly as it was — vertex set, edge
set, weights, endpoints, positions, back-reference sets and all. -/
theorem claim_C9 (g : PyGraph) :
    (∀ (v : ℕ) (p : ℤ × ℤ) (err : GraphErr),
      (move_vertex g v p).1 = some err → (move_vertex g v p).2 = g) ∧
    (∀ (v : ℕ) (err : GraphErr),
      (remove_vertex g v).1 = some err → (remove_vertex g v).2 = g) ∧
    (∀ (a b : ℕ) (w : ℤ) (err : GraphErr),
      (add_edge g a b w).1 = some err → (add_edge g a b w).2 = g) ∧
    (∀ (e : ℕ) (w : ℤ) (err : GraphErr),
      (modify_edge_weight g e w).1 = some err →
        (modify_edge_weight g e w).2 = g) ∧
    (∀ (e : ℕ) (err : GraphErr),
      (remove_edge g e).1 = some err → (remove_edge g e).2 = g) := by
  refine ⟨?_, ?_, ?_, ?_, ?_⟩
  · intro v p err h
    unfold move_vertex at h ⊢
    by_cases hv : v ∈ g.vertices
    · rw [if_pos hv] at h
      cases h
    · rw [if_neg hv]
  · intro v err h
    unfold remove_vertex at h ⊢
    by_cases hv : v ∈ g.vertices
    · rw [if_pos hv] at h
      cases h
    · rw [if_neg hv]
  · intro a b w err h
    unfold add_edge at h ⊢
    by_cases hab : a ∈ g.vertices ∧ b ∈ g.vertices
    · rw [if_pos hab] at h ⊢
      by_cases heq : a = b
      · rw [if_pos heq] at h
        cases h
      · rw [if_neg heq] at h ⊢
        rcases hfind : g.edges.find?
            (fun e => decide (({a, b} : Finset ℕ) = pair_of g e)) with - | e
        · simp only [hfind] at h
          cases h
        · simp only [hfind] at h ⊢
          unfold modify_edge_weight at h ⊢
          by_cases he : e ∈ g.edges
          · rw [if_pos he] at h
            cases h
          · rw [if_neg he]
    · rw [if_neg hab]
  · intro e w err h
    unfold modify_edge_weight at h ⊢
    by_cases he : e ∈ g.edges
    · rw [if_pos he] at h
      cases h
    · rw [if_neg he]
  · intro e err h
    unfold remove_edge at h ⊢
    by_cases he : e ∈ g.edges
    · rw [if_pos he] at h
      cases h
    · rw [if_neg he]

/-- Witness for C9: concrete failing calls leave the sample graph
untouched. -/
theorem claim_C9_witness :
    (move_vertex sample_graph 5 (1, 1)).1 = some GraphErr.unknownVertex ∧
    (move_vertex sample_graph 5 (1, 1)).2 = sample_graph ∧
    (remove_vertex sample_graph 5).2 = sample_graph ∧
    (add_edge sample_graph 0 5 3).2 = sample_graph ∧
    (modify_edge_weight sample_graph 9 3).2 = sample_graph ∧
    (remove_edge sample_graph 9).2 = sample_graph := by
  refine ⟨rfl, ?_, ?_, ?_, ?_, ?_⟩
  · exact (claim_C9 sample_graph).1 5 (1, 1) GraphErr.unknownVertex rfl
  · exact (claim_C9 sample_graph).2.1 5 GraphErr.unknownVertex rfl
  · exact (claim_C9 sample_graph).2.2.1 0 5 3 GraphErr.unknownVertex rfl
  · exact (claim_C9 sample_graph).2.2.2.1 9 3 GraphErr.unknownEdge rfl
  · exact (claim_C9 sample_graph).2.2.2.2 9 GraphErr.unknownEdge rfl

/-! ### remove_edge and the cascade of remove_vertex -/

theorem remove_edge_effect {g : PyGraph} {e : ℕ} (he : e ∈ g.edges) :
    (remove_edge g e).1 = none ∧
    (remove_edge g e).2.edges = g.edges.erase e ∧
    (remove_edge g e).2.vertices = g.vertices ∧
    (remove_edge g e).2.ends = g.ends ∧
    (remove_edge g e).2.wt = g.wt ∧
    (remove_edge g e).2.pos = g.pos ∧
    (remove_edge g e).2.next_id = g.next_id ∧
    ((g.ends e).1 ≠ (g.ends e).2 →
      ∀ u : ℕ, (remove_edge g e).2.vedges u =
        if u = (g.ends e).1 ∨ u = (g.ends e).2 then (g.vedges u).erase e
        else g.vedges u) := by
  unfold remove_edge
  rw [if_pos he]
  refine ⟨rfl, rfl, rfl, rfl, rfl, rfl, rfl, ?_⟩
  intro hne u
  by_cases hb : u = (g.ends e).2
  · subst hb
    rw [if_pos (Or.inr rfl)]
    simp only [Function.update_same]
    rw [Function.update_noteq (Ne.symm hne)]
  · by_cases ha : u = (g.ends e).1
    · subst ha
      rw [if_pos (Or.inl rfl)]
      simp only [Function.update_noteq hb, Function.update_same]
    · rw [if_neg (by tauto)]
      simp only [Function.update_noteq hb, Function.update_noteq ha]

theorem fold_remove_edges (L : List ℕ) (g : PyGraph)
    (hsub : ∀ e ∈ L, e ∈ g.edges) (hnd : L.Nodup)
    (hndE : g.edges.Nodup)
    (hends : ∀ e ∈ g.edges, (g.ends e).1 ∈ g.vertices ∧
      (g.ends e).2 ∈ g.vertices ∧ (g.ends e).1 ≠ (g.ends e).2)
    (hback : ∀ u ∈ g.vertices, ∀ e ∈ g.vedges u,
      e ∈ g.edges ∧ ((g.ends e).1 = u ∨ (g.ends e).2 = u))
    (hvnd : ∀ u ∈ g.vertices, (g.vedges u).Nodup) :
    (L.foldl (fun h e => (remove_edge h e).2) g).vertices = g.vertices ∧
    (L.foldl (fun h e => (remove_edge h e).2) g).ends = g.ends ∧
    (L.foldl (fun h e => (remove_edge h e).2) g).wt = g.wt ∧
    (L.foldl (fun h e => (remove_edge h e).2) g).pos = g.pos ∧
    (L.foldl (fun h e => (remove_edge h e).2) g).next_id = g.next_id ∧
    (L.foldl (fun h e => (remove_edge h e).2) g).edges.Nodup ∧
    (∀ e : ℕ, e ∈ (L.foldl (fun h e => (remove_edge h e).2) g).edges ↔
      (e ∈ g.edges ∧ e ∉ L)) ∧
    (∀ u ∈ g.vertices,
      ((L.foldl (fun h e => (remove_edge h e).2) g).vedges u).Nodup ∧
      ∀ e : ℕ, e ∈ (L.foldl (fun h e => (remove_edge h e).2) g).vedges u ↔
        (e ∈ g.vedges u ∧ e ∉ L)) := by
  induction L generalizing g with
  | nil =>
      refine ⟨rfl, rfl, rfl, rfl, rfl, hndE, ?_, ?_⟩
      · intro e
        simp
      · intro u hu
        refine ⟨hvnd u hu, ?_⟩
        intro e
        simp
  | cons x L' ih =>
      have hxe : x ∈ g.edges := hsub x (List.mem_cons_self x L')
      have hxne : (g.ends x).1 ≠ (g.ends x).2 := (hends x hxe).2.2
      rcases remove_edge_effect hxe with
        ⟨-, hE, hV, hEnds, hWt, hPos, hNid, hVed⟩
      have hVed' := hVed hxne
      set g1 := (remove_edge g x).2 with hg1
      have hxL' : x ∉ L' := (List.nodup_cons.mp hnd).1
      have hndL' : L'.Nodup := (List.nodup_cons.mp hnd).2
      have hsub1 : ∀ e ∈ L', e ∈ g1.edges := by
        intro e heL'
        have heg : e ∈ g.edges := hsub e (List.mem_cons_of_mem x heL')
        have hne : e ≠ x := fun habs => hxL' (habs ▸ heL')
        rw [hE]
        exact (List.mem_erase_of_ne hne).mpr heg
      have hndE1 : g1.edges.Nodup := by
        rw [hE]
        exact hndE.erase x
      have hmem1 : ∀ e : ℕ, e ∈ g1.edges ↔ (e ∈ g.edges ∧ e ≠ x) := by
        intro e
        rw [hE, List.Nodup.mem_erase_iff hndE]
        tauto
      have hends1 : ∀ e ∈ g1.edges, (g1.ends e).1 ∈ g1.vertices ∧
          (g1.ends e).2 ∈ g1.vertices ∧ (g1.ends e).1 ≠ (g1.ends e).2 := by
        intro e he
        rw [hEnds, hV]
        exact hends e ((hmem1 e).mp he).1
      have hvmem1 : ∀ u ∈ g.vertices, ∀ e : ℕ,
          e ∈ g1.vedges u ↔ (e ∈ g.vedges u ∧ e ≠ x) := by
        intro u hu e
        rw [hVed' u]
        by_cases hcase : u = (g.ends x).1 ∨ u = (g.ends x).2
        · rw [if_pos hcase, List.Nodup.mem_erase_iff (hvnd u hu)]
          tauto
        · rw [if_neg hcase]
          constructor
          · intro hmem
            refine ⟨hmem, ?_⟩
            intro habs
            subst habs
            rcases (hback u hu e hmem).2 with h1 | h1
            · exact hcase (Or.inl h1.symm)
            · exact hcase (Or.inr h1.symm)
          · exact fun h => h.1
      have hback1 : ∀ u ∈ g1.vertices, ∀ e ∈ g1.vedges u,
          e ∈ g1.edges ∧ ((g1.ends e).1 = u ∨ (g1.ends e).2 = u) := by
        intro u hu e he
        rw [hV] at hu
        rcases (hvmem1 u hu e).mp he with ⟨hev, hne⟩
        rw [hEnds, hmem1]
        exact ⟨⟨(hback u hu e hev).1, hne⟩, (hback u hu e hev).2⟩
      have hvnd1 : ∀ u ∈ g1.vertices, (g1.vedges u).Nodup := by
        intro u hu
        rw [hV] at hu
        rw [hVed' u]
        by_cases hcase : u = (g.ends x).1 ∨ u = (g.ends x).2
        · rw [if_pos hcase]
          exact (hvnd u hu).erase x
        · rw [if_neg hcase]
          exact hvnd u hu
      rcases ih g1 hsub1 hndL' hndE1 (hV ▸ hends1) (hV ▸ hback1) (hV ▸ hvnd1)
        with ⟨cV, cEnds, cWt, cPos, cNid, cNd, cMem, cVed⟩
      have hfold : (x :: L').foldl (fun h e => (remove_edge h e).2) g =
          L'.foldl (fun h e => (remove_edge h e).2) g1 := rfl
      rw [hfold]
      refine ⟨cV.trans hV, cEnds.trans hEnds, cWt.trans hWt, cPos.trans hPos,
        cNid.trans hNid, cNd, ?_, ?_⟩
      · intro e
        rw [cMem e, hmem1 e, List.mem_cons]
        tauto
      · intro u hu
        have hu1 : u ∈ g1.vertices := hV ▸ hu
        refine ⟨(cVed u hu1).1, ?_⟩
        intro e
        rw [(cVed u hu1).2 e, hvmem1 u hu e, List.mem_cons]
        tauto

/-- **C5.** `remove_vertex(v)` fails with `UnknownVertex` when `v` is not
a member; when it is, every incident edge is removed first (clearing both
endpoints' back-reference sets), then `v` itself, so that afterwards no
edge of the graph references `v`, no surviving back-reference set
mentions a removed edge, and `v` is no longer a vertex. -/
theorem claim_C5 (g : PyGraph) (hwf : WF g) (v : ℕ) :
    (v ∉ g.vertices → remove_vertex g v = (some GraphErr.unknownVertex, g)) ∧
    (v ∈ g.vertices →
      (remove_vertex g v).1 = none ∧
      v ∉ (remove_vertex g v).2.vertices ∧
      (∀ e ∈ (remove_vertex g v).2.edges,
        ((remove_vertex g v).2.ends e).1 ≠ v ∧
        ((remove_vertex g v).2.ends e).2 ≠ v) ∧
      (∀ u ∈ (remove_vertex g v).2.vertices,
        ∀ e ∈ (remove_vertex g v).2.vedges u,
          e ∈ (remove_vertex g v).2.edges)) := by
  obtain ⟨hvnd', hend', hvednd', hmem', hne', hbackf', hbackb', hsimp', hid'⟩ := hwf
  constructor
  · intro hv
    unfold remove_vertex
    rw [if_neg hv]
  · intro hv
    have hsubI : ∀ e ∈ incident_edges g v, e ∈ g.edges := by
      intro e he
      exact (List.mem_filter.mp he).1
    have hndI : (incident_edges g v).Nodup := List.Nodup.filter _ hend'
    have hends : ∀ e ∈ g.edges, (g.ends e).1 ∈ g.vertices ∧
        (g.ends e).2 ∈ g.vertices ∧ (g.ends e).1 ≠ (g.ends e).2 :=
      fun e he => ⟨(hmem' e he).1, (hmem' e he).2, hne' e he⟩
    rcases fold_remove_edges (incident_edges g v) g hsubI hndI hend' hends
      hbackf' hvednd' with ⟨cV, cEnds, -, -, -, -, cMem, cVed⟩
    have hrv : remove_vertex g v =
        (none,
          { (incident_edges g v).foldl (fun h e => (remove_edge h e).2) g with
            vertices := ((incident_edges g v).foldl
              (fun h e => (remove_edge h e).2) g).vertices.erase v }) := by
      unfold remove_vertex
      rw [if_pos hv]
    rw [hrv]
    refine ⟨rfl, ?_, ?_, ?_⟩
    · simp only
      rw [cV]
      intro habs
      exact ((List.Nodup.mem_erase_iff hvnd').mp habs).1 rfl
    · intro e he
      simp only at he ⊢
      rw [cEnds]
      rcases (cMem e).mp he with ⟨heg, hnI⟩
      constructor
      · intro habs
        refine hnI ?_
        unfold incident_edges
        rw [List.mem_filter]
        refine ⟨heg, ?_⟩
        simp [habs]
      · intro habs
        refine hnI ?_
        unfold incident_edges
        rw [List.mem_filter]
        refine ⟨heg, ?_⟩
        simp [habs]
    · intro u hu e he
      simp only at hu he ⊢
      have hu' : u ∈ g.vertices := by
        rw [cV] at hu
        exact List.mem_of_mem_erase hu
      rcases ((cVed u hu').2 e).mp he with ⟨hev, hnI⟩
      rcases hbackf' u hu' e hev with ⟨heg, -⟩
      exact (cMem e).mpr ⟨heg, hnI⟩

/-- Witness for C5: removing vertex 0 of the sample graph removes its
incident edge and all references. -/
theorem claim_C5_witness :
    WF sample_graph ∧
    ((0 : ℕ) ∉ sample_graph.vertices →
      remove_vertex sample_graph 0 = (some GraphErr.unknownVertex, sample_graph)) ∧
    ((0 : ℕ) ∈ sample_graph.vertices →
      (remove_vertex sample_graph 0).1 = none ∧
      (0 : ℕ) ∉ (remove_vertex sample_graph 0).2.vertices ∧
      (∀ e ∈ (remove_vertex sample_graph 0).2.edges,
        ((remove_vertex sample_graph 0).2.ends e).1 ≠ 0 ∧
        ((remove_vertex sample_graph 0).2.ends e).2 ≠ 0) ∧
      (∀ u ∈ (remove_vertex sample_graph 0).2.vertices,
        ∀ e ∈ (remove_vertex sample_graph 0).2.vedges u,
          e ∈ (remove_vertex sample_graph 0).2.edges)) :=
  ⟨by decide, (claim_C5 sample_graph (by decide) 0).1,
    (claim_C5 sample_graph (by decide) 0).2⟩

/-! ### add_edge: simplicity-preserving insertion or weight update -/

theorem mem_set_add {α : Type} [DecidableEq α] {l : List α} {x y : α} :
    y ∈ set_add l x ↔ y ∈ l ∨ y = x := by
  unfold set_add
  by_cases hx : x ∈ l
  · rw [if_pos hx]
    constructor
    · exact Or.inl
    · rintro (h | rfl)
      · exact h
      · exact hx
  · rw [if_neg hx]
    rw [List.mem_append, List.mem_singleton]

theorem set_add_nodup {α : Type} [DecidableEq α] {l : List α}
    (h : l.Nodup) (x : α) : (set_add l x).Nodup := by
  unfold set_add
  by_cases hx : x ∈ l
  · rw [if_pos hx]
    exact h
  · rw [if_neg hx]
    rw [List.nodup_append]
    refine ⟨h, List.nodup_singleton x, ?_⟩
    intro y hy
    rw [List.mem_singleton]
    intro habs
    exact hx (habs ▸ hy)

theorem filter_eq_singleton {α : Type} {p : α → Bool} {l : List α} {e : α}
    (hnd : l.Nodup) (he : e ∈ l) (hpe : p e = true)
    (huniq : ∀ f ∈ l, p f = true → f = e) : l.filter p = [e] := by
  induction l with
  | nil => cases he
  | cons x xs ih =>
      have hxnd := (List.nodup_cons.mp hnd).2
      have hxnotin := (List.nodup_cons.mp hnd).1
      by_cases hpx : p x = true
      · have hxe : x = e := huniq x (List.mem_cons_self x xs) hpx
        subst hxe
        rw [List.filter_cons_of_pos hpx]
        have hnil : xs.filter p = [] := by
          rw [List.filter_eq_nil]
          intro f hf hpf
          exact hxnotin ((huniq f (List.mem_cons_of_mem _ hf) hpf) ▸ hf)
        rw [hnil]
      · rw [List.filter_cons_of_neg (by simp [hpx])]
        have hexs : e ∈ xs := by
          rcases List.mem_cons.mp he with rfl | h
          · exact absurd hpe hpx
          · exact h
        exact ih hxnd hexs
          (fun f hf hpf => huniq f (List.mem_cons_of_mem _ hf) hpf)

theorem add_edge_spec {g : PyGraph} (hwf : WF g) {a b : ℕ}
    (ha : a ∈ g.vertices) (hb : b ∈ g.vertices) (hne : a ≠ b) (w : ℤ) :
    (add_edge g a b w).1 = none ∧
    WF (add_edge g a b w).2 ∧
    (add_edge g a b w).2.vertices = g.vertices ∧
    ∃ eid, edges_between (add_edge g a b w).2 a b = [eid] ∧
      (add_edge g a b w).2.wt eid = w ∧
      ((∀ e ∈ g.edges, ({a, b} : Finset ℕ) ≠ pair_of g e) →
        (add_edge g a b w).2.edges = g.edges ++ [g.next_id] ∧
          eid = g.next_id) ∧
      ((∃ e ∈ g.edges, ({a, b} : Finset ℕ) = pair_of g e) →
        (add_edge g a b w).2.edges = g.edges) := by
  obtain ⟨hvnd, hendnd, hvednd, hmem, hnee, hbackf, hbackb, hsimp, hid⟩ := hwf
  rcases hfind : g.edges.find?
      (fun e => decide (({a, b} : Finset ℕ) = pair_of g e)) with - | e
  · -- no edge joins {a, b} yet: a new Edge is constructed and inserted
    have hnomatch : ∀ f ∈ g.edges, ({a, b} : Finset ℕ) ≠ pair_of g f := by
      intro f hf habs
      have := List.find?_eq_none.mp hfind f hf
      exact this (decide_eq_true habs)
    have hfresh : g.next_id ∉ g.edges := fun habs => lt_irrefl _ (hid _ habs)
    have hresult : add_edge g a b w =
        (none,
          { vertices := g.vertices
            pos := g.pos
            vedges := Function.update
              (Function.update g.vedges a (set_add (g.vedges a) g.next_id)) b
              (set_add ((Function.update g.vedges a
                (set_add (g.vedges a) g.next_id)) b) g.next_id)
            edges := set_add g.edges g.next_id
            ends := Function.update g.ends g.next_id (a, b)
            wt := Function.update g.wt g.next_id w
            next_id := g.next_id + 1 }) := by
      unfold add_edge
      rw [if_pos ⟨ha, hb⟩, if_neg hne]
      simp only [hfind]
    rw [hresult]
    set R : PyGraph :=
      { vertices := g.vertices
        pos := g.pos
        vedges := Function.update
          (Function.update g.vedges a (set_add (g.vedges a) g.next_id)) b
          (set_add ((Function.update g.vedges a
            (set_add (g.vedges a) g.next_id)) b) g.next_id)
        edges := set_add g.edges g.next_id
        ends := Function.update g.ends g.next_id (a, b)
        wt := Function.update g.wt g.next_id w
        next_id := g.next_id + 1 } with hR
    have hedges : R.edges = g.edges ++ [g.next_id] := by
      show set_add g.edges g.next_id = g.edges ++ [g.next_id]
      unfold set_add
      rw [if_neg hfresh]
    have hmemR : ∀ f : ℕ, f ∈ R.edges ↔ f ∈ g.edges ∨ f = g.next_id := by
      intro f
      show f ∈ set_add g.edges g.next_id ↔ _
      exact mem_set_add
    have hvedgesR : ∀ u : ℕ, R.vedges u =
        if u = b then set_add (g.vedges b) g.next_id
        else if u = a then set_add (g.vedges a) g.next_id
        else g.vedges u := by
      intro u
      show (Function.update
          (Function.update g.vedges a (set_add (g.vedges a) g.next_id)) b
          (set_add ((Function.update g.vedges a
            (set_add (g.vedges a) g.next_id)) b) g.next_id)) u = _
      by_cases hub : u = b
      · subst hub
        rw [if_pos rfl, Function.update_same,
          Function.update_noteq (Ne.symm hne)]
      · rw [if_neg hub, Function.update_noteq hub]
        by_cases hua : u = a
        · subst hua
          rw [if_pos rfl, Function.update_same]
        · rw [if_neg hua, Function.update_noteq hua]
    have hne_id : ∀ f ∈ g.edges, f ≠ g.next_id := by
      intro f hf habs
      exact hfresh (habs ▸ hf)
    have hendsR_old : ∀ f ∈ g.edges, R.ends f = g.ends f := by
      intro f hf
      show Function.update g.ends g.next_id (a, b) f = g.ends f
      rw [Function.update_noteq (hne_id f hf)]
    have hendsR_new : R.ends g.next_id = (a, b) := by
      show Function.update g.ends g.next_id (a, b) g.next_id = (a, b)
      rw [Function.update_same]
    have hpair_old : ∀ f ∈ g.edges, pair_of R f = pair_of g f := by
      intro f hf
      unfold pair_of
      rw [hendsR_old f hf]
    have hpair_new : pair_of R g.next_id = {a, b} := by
      unfold pair_of
      rw [hendsR_new]
    have hndR : R.edges.Nodup := by
      rw [hedges, List.nodup_append]
      refine ⟨hendnd, List.nodup_singleton _, ?_⟩
      intro f hf
      rw [List.mem_singleton]
      exact hne_id f hf
    refine ⟨rfl, ?_, rfl, g.next_id, ?_, ?_, ?_, ?_⟩
    · -- WF R
      refine ⟨hvnd, hndR, ?_, ?_, ?_, ?_, ?_, ?_, ?_⟩
      · intro v hv
        rw [hvedgesR v]
        by_cases hvb : v = b
        · rw [if_pos hvb]
          exact set_add_nodup (hvednd b (hvb ▸ hv)) _
        · rw [if_neg hvb]
          by_cases hva : v = a
          · rw [if_pos hva]
            exact set_add_nodup (hvednd a (hva ▸ hv)) _
          · rw [if_neg hva]
            exact hvednd v hv
      · intro f hf
        rcases (hmemR f).mp hf with hfg | rfl
        · rw [hendsR_old f hfg]
          exact hmem f hfg
        · rw [hendsR_new]
          exact ⟨ha, hb⟩
      · intro f hf
        rcases (hmemR f).mp hf with hfg | rfl
        · rw [hendsR_old f hfg]
          exact hnee f hfg
        · rw [hendsR_new]
          exact hne
      · intro v hv f hf
        rw [hvedgesR v] at hf
        by_cases hvb : v = b
        · rw [if_pos hvb] at hf
          rcases mem_set_add.mp hf with hfv | rfl
          · rcases hbackf b (hvb ▸ hv) f hfv with ⟨hfg, hcond⟩
            rw [hendsR_old f hfg]
            exact ⟨(hmemR f).mpr (Or.inl hfg), hvb ▸ hcond⟩
          · rw [hendsR_new]
            exact ⟨(hmemR g.next_id).mpr (Or.inr rfl), Or.inr hvb.symm⟩
        · rw [if_neg hvb] at hf
          by_cases hva : v = a
          · rw [if_pos hva] at hf
            rcases mem_set_add.mp hf with hfv | rfl
            · rcases hbackf a (hva ▸ hv) f hfv with ⟨hfg, hcond⟩
              rw [hendsR_old f hfg]
              exact ⟨(hmemR f).mpr (Or.inl hfg), hva ▸ hcond⟩
            · rw [hendsR_new]
              exact ⟨(hmemR g.next_id).mpr (Or.inr rfl), Or.inl hva.symm⟩
          · rw [if_neg hva] at hf
            rcases hbackf v hv f hf with ⟨hfg, hcond⟩
            rw [hendsR_old f hfg]
            exact ⟨(hmemR f).mpr (Or.inl hfg), hcond⟩
      · intro v hv f hf hcond
        rw [hvedgesR v]
        rcases (hmemR f).mp hf with hfg | rfl
        · rw [hendsR_old f hfg] at hcond
          have hold : f ∈ g.vedges v := hbackb v hv f hfg hcond
          by_cases hvb : v = b
          · rw [if_pos hvb]
            exact mem_set_add.mpr (Or.inl (hvb ▸ hold))
          · rw [if_neg hvb]
            by_cases hva : v = a
            · rw [if_pos hva]
              exact mem_set_add.mpr (Or.inl (hva ▸ hold))
            · rw [if_neg hva]
              exact hold
        · rw [hendsR_new] at hcond
          rcases hcond with hva | hvb
          · have hva' : v = a := hva.symm
            have hvnb : ¬ v = b := by
              rw [hva']
              exact hne
            rw [if_neg hvnb, if_pos hva']
            exact mem_set_add.mpr (Or.inr rfl)
          · rw [if_pos hvb.symm]
            exact mem_set_add.mpr (Or.inr rfl)
      · intro f hf f' hf' hpp
        rcases (hmemR f).mp hf with hfg | rfl <;>
          rcases (hmemR f').mp hf' with hfg' | rfl
        · rw [hpair_old f hfg, hpair_old f' hfg'] at hpp
          exact hsimp f hfg f' hfg' hpp
        · rw [hpair_old f hfg, hpair_new] at hpp
          exact absurd hpp.symm (hnomatch f hfg)
        · rw [hpair_new, hpair_old f' hfg'] at hpp
          exact absurd hpp (hnomatch f' hfg')
        · rfl
      · intro f hf
        show f < g.next_id + 1
        rcases (hmemR f).mp hf with hfg | rfl
        · exact Nat.lt_succ_of_lt (hid f hfg)
        · exact Nat.lt_succ_self _
    · -- exactly the new edge joins {a, b}
      unfold edges_between
      refine filter_eq_singleton hndR ((hmemR _).mpr (Or.inr rfl))
        (decide_eq_true hpair_new.symm) ?_
      intro f hf hpf
      have hp : ({a, b} : Finset ℕ) = pair_of R f := of_decide_eq_true hpf
      rcases (hmemR f).mp hf with hfg | rfl
      · rw [hpair_old f hfg] at hp
        exact absurd hp (hnomatch f hfg)
      · rfl
    · show Function.update g.wt g.next_id w g.next_id = w
      rw [Function.update_same]
    · intro _
      exact ⟨hedges, rfl⟩
    · rintro ⟨f, hfg, hp⟩
      exact absurd hp (hnomatch f hfg)
  · -- an edge already joins {a, b}: its weight is updated in place
    have hemem : e ∈ g.edges := List.mem_of_find?_eq_some hfind
    have hfs := List.find?_some hfind
    have hpred : ({a, b} : Finset ℕ) = pair_of g e := of_decide_eq_true hfs
    have hresult : add_edge g a b w = modify_edge_weight g e w := by
      unfold add_edge
      rw [if_pos ⟨ha, hb⟩, if_neg hne]
      simp only [hfind]
    have hmew : modify_edge_weight g e w =
        (none, { g with wt := Function.update g.wt e w }) := by
      unfold modify_edge_weight
      rw [if_pos hemem]
    rw [hresult, hmew]
    refine ⟨rfl, ?_, rfl, e, ?_, ?_, ?_, ?_⟩
    · exact ⟨hvnd, hendnd, hvednd, hmem, hnee, hbackf, hbackb, hsimp, hid⟩
    · unfold edges_between
      refine filter_eq_singleton hendnd hemem (decide_eq_true hpred) ?_
      intro f hf hpf
      have hp : ({a, b} : Finset ℕ) = pair_of g f := of_decide_eq_true hpf
      exact hsimp f hf e hemem (hp.symm.trans hpred)
    · show Function.update g.wt e w e = w
      rw [Function.update_same]
    · intro habs
      exact absurd hpred (habs e hemem)
    · intro _
      rfl
/-- **C6.** `add_edge(a, b, w)` fails with `UnknownVertex` when either
endpoint is absent; it is a no-op when `a == b`; when an edge already
joins the unordered pair `{a, b}` it updates that edge's weight instead
of inserting a duplicate; otherwise it constructs and inserts a new edge.
Consequently, for `a ≠ b`, `add_edge(a,b,w1)` then `add_edge(a,b,w2)`
leaves exactly one edge between `a` and `b`, with weight `w2`. -/
theorem claim_C6 (g : PyGraph) (hwf : WF g) (a b : ℕ) (w1 w2 : ℤ) :
    ((a ∉ g.vertices ∨ b ∉ g.vertices) →
      add_edge g a b w1 = (some GraphErr.unknownVertex, g)) ∧
    (a ∈ g.vertices → b ∈ g.vertices → a = b →
      add_edge g a b w1 = (none, g)) ∧
    (a ∈ g.vertices → b ∈ g.vertices → a ≠ b →
      (add_edge g a b w1).1 = none ∧
      (∃ eid, edges_between (add_edge g a b w1).2 a b = [eid] ∧
        (add_edge g a b w1).2.wt eid = w1) ∧
      ((∃ e ∈ g.edges, ({a, b} : Finset ℕ) = pair_of g e) →
        (add_edge g a b w1).2.edges = g.edges) ∧
      ((∀ e ∈ g.edges, ({a, b} : Finset ℕ) ≠ pair_of g e) →
        (add_edge g a b w1).2.edges = g.edges ++ [g.next_id]) ∧
      (∃ eid2,
        edges_between (add_edge (add_edge g a b w1).2 a b w2).2 a b = [eid2] ∧
        (add_edge (add_edge g a b w1).2 a b w2).2.wt eid2 = w2)) := by
  refine ⟨?_, ?_, ?_⟩
  · intro hab
    unfold add_edge
    rw [if_neg (by tauto)]
  · intro ha hb heq
    unfold add_edge
    rw [if_pos ⟨ha, hb⟩, if_pos heq]
  · intro ha hb hne
    rcases add_edge_spec hwf ha hb hne w1 with
      ⟨h1, hwf2, hverts2, eid, hbet, hwt, hnonb, hsomeb⟩
    have ha2 : a ∈ (add_edge g a b w1).2.vertices := hverts2 ▸ ha
    have hb2 : b ∈ (add_edge g a b w1).2.vertices := hverts2 ▸ hb
    rcases add_edge_spec hwf2 ha2 hb2 hne w2 with
      ⟨-, -, -, eid2, hbet2, hwt2, -, -⟩
    exact ⟨h1, ⟨eid, hbet, hwt⟩, hsomeb,
      fun h => (hnonb h).1, ⟨eid2, hbet2, hwt2⟩⟩

/-- Witness for C6: two successive `add_edge 0 1` calls on the sample
graph leave exactly one edge between 0 and 1, carrying the second
weight. -/
theorem claim_C6_witness :
    WF sample_graph ∧
    (((0 : ℕ) ∉ sample_graph.vertices ∨ (1 : ℕ) ∉ sample_graph.vertices →
      add_edge sample_graph 0 1 3 = (some GraphErr.unknownVertex, sample_graph)) ∧
    ((0 : ℕ) ∈ sample_graph.vertices → (1 : ℕ) ∈ sample_graph.vertices →
      (0 : ℕ) = 1 → add_edge sample_graph 0 1 3 = (none, sample_graph)) ∧
    ((0 : ℕ) ∈ sample_graph.vertices → (1 : ℕ) ∈ sample_graph.vertices →
      (0 : ℕ) ≠ 1 →
      (add_edge sample_graph 0 1 3).1 = none ∧
      (∃ eid, edges_between (add_edge sample_graph 0 1 3).2 0 1 = [eid] ∧
        (add_edge sample_graph 0 1 3).2.wt eid = 3) ∧
      ((∃ e ∈ sample_graph.edges,
          ({0, 1} : Finset ℕ) = pair_of sample_graph e) →
        (add_edge sample_graph 0 1 3).2.edges = sample_graph.edges) ∧
      ((∀ e ∈ sample_graph.edges,
          ({0, 1} : Finset ℕ) ≠ pair_of sample_graph e) →
        (add_edge sample_graph 0 1 3).2.edges =
          sample_graph.edges ++ [sample_graph.next_id]) ∧
      (∃ eid2,
        edges_between (add_edge (add_edge sample_graph 0 1 3).2 0 1 5).2 0 1 =
          [eid2] ∧
        (add_edge (add_edge sample_graph 0 1 3).2 0 1 5).2.wt eid2 = 5))) :=
  ⟨by decide, claim_C6 sample_graph (by decide) 0 1 3 5⟩

/-! ### DFS correctness and the usability query -/

theorem greach_trans {g : PyGraph} {x y z : ℕ}
    (hxy : GReach g x y) (hyz : GReach g y z) : GReach g x z := by
  induction hxy with
  | refl _ => exact hyz
  | step e he hi _ ih => exact GReach.step e he hi (ih hyz)

theorem greach_symm {g : PyGraph} {x y : ℕ} (h : GReach g x y) :
    GReach g y x := by
  induction h with
  | refl x => exact GReach.refl x
  | step e he hi _ ih =>
      refine greach_trans ih (GReach.step e he ?_ (GReach.refl _))
      rcases hi with ⟨h1, h2⟩ | ⟨h1, h2⟩
      · exact Or.inr ⟨h1, h2⟩
      · exact Or.inl ⟨h1, h2⟩

theorem iterate_growth (f : Finset ℕ → Finset ℕ) (hincl : ∀ t, t ⊆ f t)
    (s : Finset ℕ) (m : ℕ) (hne : ∀ k < m, f^[k] s ≠ f^[k + 1] s) :
    s.card + m ≤ (f^[m] s).card := by
  induction m with
  | zero => simp
  | succ m ih =>
      have h1 : s.card + m ≤ (f^[m] s).card := ih (fun k hk => hne k (by omega))
      have h2 : f^[m] s ⊆ f^[m + 1] s := by
        rw [Function.iterate_succ_apply']
        exact hincl _
      have h3 : f^[m] s ≠ f^[m + 1] s := hne m (by omega)
      have h4 : (f^[m] s).card < (f^[m + 1] s).card :=
        Finset.card_lt_card (h2.ssubset_of_ne h3)
      omega

theorem iterate_subset_bound (f : Finset ℕ → Finset ℕ) (B : Finset ℕ)
    (hbound : ∀ t, t ⊆ B → f t ⊆ B) (s : Finset ℕ) (hs : s ⊆ B) :
    ∀ m, f^[m] s ⊆ B := by
  intro m
  induction m with
  | zero => exact hs
  | succ m ih =>
      rw [Function.iterate_succ_apply']
      exact hbound _ ih

theorem iterate_fix_propagate (f : Finset ℕ → Finset ℕ) (s : Finset ℕ)
    {k : ℕ} (hfix : f^[k] s = f^[k + 1] s) :
    ∀ j, k ≤ j → f^[j] s = f^[k] s := by
  intro j hkj
  induction j with
  | zero =>
      have : k = 0 := Nat.le_zero.mp hkj
      rw [this]
  | succ j ih =>
      rcases Nat.lt_or_ge k (j + 1) with hlt | hge
      · have hkle : k ≤ j := by omega
        have hj := ih hkle
        rw [Function.iterate_succ_apply', hj]
        exact (Function.iterate_succ_apply' f k s).symm.trans hfix.symm
      · have : k = j + 1 := by omega
        rw [this]

theorem iterate_fixpoint (f : Finset ℕ → Finset ℕ) (hincl : ∀ t, t ⊆ f t)
    (B : Finset ℕ) (hbound : ∀ t, t ⊆ B → f t ⊆ B) (s : Finset ℕ)
    (hs : s ⊆ B) (hsne : s.Nonempty) :
    f (f^[B.card] s) = f^[B.card] s := by
  have hexists : ∃ k < B.card, f^[k] s = f^[k + 1] s := by
    by_contra habs
    push_neg at habs
    have hgrow := iterate_growth f hincl s B.card habs
    have hcard1 : 1 ≤ s.card := Finset.card_pos.mpr hsne
    have hle : (f^[B.card] s).card ≤ B.card :=
      Finset.card_le_card (iterate_subset_bound f B hbound s hs B.card)
    omega
  rcases hexists with ⟨k, hk, hfix⟩
  have h1 : f^[B.card] s = f^[k] s :=
    iterate_fix_propagate f s hfix B.card (by omega)
  rw [h1]
  exact (Function.iterate_succ_apply' f k s).symm.trans hfix.symm

theorem neighbors_mem {g : PyGraph} (hwf : WF g) {u y : ℕ}
    (hu : u ∈ g.vertices) (hy : y ∈ neighbors g u) : y ∈ g.vertices := by
  obtain ⟨-, -, -, hmem, -, hbackf, -, -, -⟩ := hwf
  rcases List.mem_map.mp hy with ⟨e, he, rfl⟩
  rcases hbackf u hu e he with ⟨heg, -⟩
  unfold walk_fn
  by_cases hcase : u = (g.ends e).2
  · rw [if_pos hcase]
    exact (hmem e heg).1
  · rw [if_neg hcase]
    exact (hmem e heg).2

theorem greach_neighbor {g : PyGraph} (hwf : WF g) {u y : ℕ}
    (hu : u ∈ g.vertices) (hy : y ∈ neighbors g u) : GReach g u y := by
  obtain ⟨-, -, -, -, -, hbackf, -, -, -⟩ := hwf
  rcases List.mem_map.mp hy with ⟨e, he, rfl⟩
  rcases hbackf u hu e he with ⟨heg, hcond⟩
  unfold walk_fn
  by_cases hcase : u = (g.ends e).2
  · rw [if_pos hcase]
    exact GReach.step e heg (Or.inr ⟨rfl, hcase.symm⟩) (GReach.refl _)
  · rw [if_neg hcase]
    rcases hcond with h1 | h1
    · exact GReach.step e heg (Or.inl ⟨h1, rfl⟩) (GReach.refl _)
    · exact absurd h1.symm hcase

theorem reach_step_incl (g : PyGraph) (t : Finset ℕ) : t ⊆ reach_step g t :=
  Finset.subset_union_left

theorem reach_step_bound {g : PyGraph} (hwf : WF g) (t : Finset ℕ)
    (ht : t ⊆ g.vertices.toFinset) :
    reach_step g t ⊆ g.vertices.toFinset := by
  unfold reach_step
  refine Finset.union_subset ht ?_
  intro y hy
  rcases Finset.mem_biUnion.mp hy with ⟨u, hu, hyn⟩
  have hu' : u ∈ g.vertices := List.mem_toFinset.mp (ht hu)
  exact List.mem_toFinset.mpr
    (neighbors_mem hwf hu' (List.mem_toFinset.mp hyn))

theorem dfs_set_sound {g : PyGraph} (hwf : WF g) {start : ℕ}
    (hstart : start ∈ g.vertices) :
    ∀ m, ∀ x ∈ (reach_step g)^[m] {start}, GReach g start x := by
  intro m
  induction m with
  | zero =>
      intro x hx
      rw [Function.iterate_zero_apply, Finset.mem_singleton] at hx
      rw [hx]
      exact GReach.refl start
  | succ m ih =>
      intro x hx
      rw [Function.iterate_succ_apply'] at hx
      unfold reach_step at hx
      rcases Finset.mem_union.mp hx with hx | hx
      · exact ih x hx
      · rcases Finset.mem_biUnion.mp hx with ⟨u, hu, hxn⟩
        have hu1 : GReach g start u := ih u hu
        have huV : u ∈ g.vertices := by
          have hsub := iterate_subset_bound (reach_step g) g.vertices.toFinset
            (fun t ht => reach_step_bound hwf t ht) {start}
            (Finset.singleton_subset_iff.mpr (List.mem_toFinset.mpr hstart)) m
          exact List.mem_toFinset.mp (hsub hu)
        exact greach_trans hu1
          (greach_neighbor hwf huV (List.mem_toFinset.mp hxn))

theorem dfs_set_complete {g : PyGraph} (hwf : WF g) {start : ℕ}
    (hstart : start ∈ g.vertices)
    (hcard : (g.vertices.toFinset).card = g.vertices.length) :
    ∀ x : ℕ, GReach g start x → x ∈ dfs_set g start := by
  have hfix : reach_step g (dfs_set g start) = dfs_set g start := by
    unfold dfs_set
    rw [← hcard]
    exact iterate_fixpoint (reach_step g) (reach_step_incl g)
      g.vertices.toFinset (fun t ht => reach_step_bound hwf t ht) {start}
      (Finset.singleton_subset_iff.mpr (List.mem_toFinset.mpr hstart))
      (Finset.singleton_nonempty start)
  have hnee : ∀ e ∈ g.edges, (g.ends e).1 ≠ (g.ends e).2 := hwf.2.2.2.2.1
  have hbackb : ∀ v ∈ g.vertices, ∀ e ∈ g.edges,
      (g.ends e).1 = v ∨ (g.ends e).2 = v → e ∈ g.vedges v :=
    hwf.2.2.2.2.2.2.1
  have hmemV : dfs_set g start ⊆ g.vertices.toFinset :=
    iterate_subset_bound (reach_step g) g.vertices.toFinset
      (fun t ht => reach_step_bound hwf t ht) {start}
      (Finset.singleton_subset_iff.mpr (List.mem_toFinset.mpr hstart)) _
  have hstart_mem : start ∈ dfs_set g start := by
    have : ({start} : Finset ℕ) ⊆ dfs_set g start := by
      unfold dfs_set
      intro x hx
      induction g.vertices.length with
      | zero => exact hx
      | succ m ih =>
          rw [Function.iterate_succ_apply']
          exact reach_step_incl g _ ih
    exact this (Finset.mem_singleton_self start)
  have hclosed : ∀ u x : ℕ, GReach g u x → u ∈ dfs_set g start →
      x ∈ dfs_set g start := by
    intro u x h
    induction h with
    | refl _ => exact id
    | @step u' m x' e he hi _ ih =>
        intro hu
        refine ih ?_
        have huV : u' ∈ g.vertices := List.mem_toFinset.mp (hmemV hu)
        have hne' : (g.ends e).1 ≠ (g.ends e).2 := hnee e he
        have hmn : m ∈ neighbors g u' := by
          unfold neighbors
          rcases hi with ⟨h1, h2⟩ | ⟨h1, h2⟩
          · refine List.mem_map.mpr ⟨e, hbackb u' huV e he (Or.inl h1), ?_⟩
            unfold walk_fn
            rw [if_neg (by rw [← h1]; exact hne'), h2]
          · refine List.mem_map.mpr ⟨e, hbackb u' huV e he (Or.inr h2), ?_⟩
            unfold walk_fn
            rw [if_pos h2.symm, h1]
        have : m ∈ reach_step g (dfs_set g start) := by
          unfold reach_step
          refine Finset.mem_union_right _ ?_
          exact Finset.mem_biUnion.mpr ⟨u', hu, List.mem_toFinset.mpr hmn⟩
        rw [hfix] at this
        exact this
  intro x hx
  exact hclosed start x hx hstart_mem

theorem connected_iff_math (g : PyGraph) (hwf : WF g) :
    connected g = true ↔ ConnectedPG g := by
  have hvnd : g.vertices.Nodup := hwf.1
  have hcard : g.vertices.toFinset.card = g.vertices.length :=
    List.toFinset_card_of_nodup hvnd
  unfold connected
  by_cases hlen : g.vertices.length ≤ 1
  · rw [if_pos hlen]
    constructor
    · intro _ u hu v hv
      have huv : u = v := by
        cases hvs : g.vertices with
        | nil =>
            rw [hvs] at hu
            cases hu
        | cons a l =>
            rw [hvs] at hu hv
            rw [hvs] at hlen
            have hl : l = [] := by
              cases l with
              | nil => rfl
              | cons b m => simp at hlen
            subst hl
            rw [List.mem_singleton.mp hu, List.mem_singleton.mp hv]
      rw [huv]
      exact GReach.refl v
    · intro _
      rfl
  · rw [if_neg hlen]
    push_neg at hlen
    have hne : g.vertices ≠ [] := by
      intro h
      rw [h] at hlen
      simp at hlen
    simp only [List.head?_eq_head hne]
    have hstart : g.vertices.head hne ∈ g.vertices := List.head_mem hne
    have hsub : dfs_set g (g.vertices.head hne) ⊆ g.vertices.toFinset :=
      iterate_subset_bound (reach_step g) g.vertices.toFinset
        (fun t ht => reach_step_bound hwf t ht) _
        (Finset.singleton_subset_iff.mpr (List.mem_toFinset.mpr hstart)) _
    constructor
    · intro h
      have hc : (dfs_set g (g.vertices.head hne)).card = g.vertices.length :=
        of_decide_eq_true h
      have heq : dfs_set g (g.vertices.head hne) = g.vertices.toFinset :=
        Finset.eq_of_subset_of_card_le hsub (by rw [hcard, hc])
      intro u hu v hv
      have h1 : GReach g (g.vertices.head hne) u :=
        dfs_set_sound hwf hstart g.vertices.length u
          (by
            show u ∈ dfs_set g (g.vertices.head hne)
            rw [heq]
            exact List.mem_toFinset.mpr hu)
      have h2 : GReach g (g.vertices.head hne) v :=
        dfs_set_sound hwf hstart g.vertices.length v
          (by
            show v ∈ dfs_set g (g.vertices.head hne)
            rw [heq]
            exact List.mem_toFinset.mpr hv)
      exact greach_trans (greach_symm h1) h2
    · intro hconn
      refine decide_eq_true ?_
      have hsup : g.vertices.toFinset ⊆ dfs_set g (g.vertices.head hne) := by
        intro v hv
        exact dfs_set_complete hwf hstart hcard v
          (hconn _ hstart v (List.mem_toFinset.mp hv))
      have heq : dfs_set g (g.vertices.head hne) = g.vertices.toFinset :=
        subset_antisymm hsub hsup
      rw [heq, hcard]

/-- **C8.** `usable` reports "needs at least one edge" whenever the edge
set is empty (this case is decided before connectivity is examined),
"must be connected" when there are edges but the graph is not connected
(in the walk-reachability sense the DFS computes), and success
otherwise. -/
theorem claim_C8 (g : PyGraph) (hwf : WF g) :
    (g.edges = [] →
      usable g = (false, "Your graph needs at least one edge!")) ∧
    (g.edges ≠ [] → ¬ ConnectedPG g →
      usable g = (false, "Your graph must be connected!")) ∧
    (g.edges ≠ [] → ConnectedPG g →
      usable g =
        (true, "Looks good! Press [SPACE] to run Kruskal\x27s Algorithm!")) := by
  refine ⟨?_, ?_, ?_⟩
  · intro h
    unfold usable
    rw [if_pos (by rw [h]; rfl)]
  · intro hne hnc
    unfold usable
    rw [if_neg (by simpa using hne)]
    have hcf : ¬ connected g = true := by
      rw [connected_iff_math g hwf]
      exact hnc
    rw [if_pos (by simpa using hcf)]
  · intro hne hc
    unfold usable
    rw [if_neg (by simpa using hne)]
    have hct : connected g = true := (connected_iff_math g hwf).mpr hc
    rw [if_neg (by simp [hct])]

/-- Witness for C8 on the sample graph (one edge, connected). -/
theorem claim_C8_witness :
    WF sample_graph ∧
    ((sample_graph.edges = [] →
      usable sample_graph = (false, "Your graph needs at least one edge!")) ∧
    (sample_graph.edges ≠ [] → ¬ ConnectedPG sample_graph →
      usable sample_graph = (false, "Your graph must be connected!")) ∧
    (sample_graph.edges ≠ [] → ConnectedPG sample_graph →
      usable sample_graph =
        (true, "Looks good! Press [SPACE] to run Kruskal\x27s Algorithm!"))) :=
  ⟨by decide, claim_C8 sample_graph (by decide)⟩

/-! ### The unguarded division in Edge.distance_to -/

/-- **C7 (code bug).** The claim states that the division by the segment
length in the segment-distance computation is guarded when the two
endpoint positions coincide, with the point-distance to `a` returned
instead.  The source has no such guard: with both endpoints at `(1,1)`,
`lies_between` is true (all three law-of-cosines tests degenerate to
equalities), the perpendicular-distance branch is taken, and the formula
divides by `pt_distance(a, b) = 0.0`, which raises `ZeroDivisionError`
in Python (modelled here as the `none` result). -/
theorem claim_C7 :
    lies_between (0, 0) (1, 1) (1, 1) ∧
    pt_distance (1, 1) (1, 1) = 0 ∧
    distance_to (0, 0) (1, 1) (1, 1) = none := by
  have h2 : pt_distance ((1 : ℤ), (1 : ℤ)) (1, 1) = 0 := by
    unfold pt_distance
    norm_num
  refine ⟨by decide, h2, ?_⟩
  unfold distance_to
  rw [if_pos (by decide), if_pos h2]

end KruskalViz
